import Mathlib

/-!
# CLibHelper: string primitives and the form-reference resolver

A shallow embedding of `Include/CLibHelper/CLibHelper.h` (namespaces
`Utilities::String` and `Utilities::Forms`) together with theorems about it.

Modelling conventions.
* A `std::string` / `std::string_view` is the list of its `char`s (`Str`); a `char` is a
  `Char`, of which the codes 0 to 255 are the values a byte can take.
* `std::string::npos` is `none`; a position is a `Nat`.
* A `while` loop is a function with a fuel argument; running out of fuel is
  `none` and stands for a loop that does not terminate.  Every entry point
  supplies a fuel that is shown to be sufficient whenever the loop terminates.
* A C++ exception is a value of `Exn`; a function that may throw returns
  `Except Exn _`, and a function that may throw or loop returns `Outcome _`.
* The host registry (`RE::TESDataHandler`, `RE::TESForm`) is external to the
  file and is passed in as a record of its three lookup functions.
* The width of `unsigned long` / `long` is not fixed by the file; it is the
  parameter `longBits` (32 on the MSVC target of the library, 64 on LP64).
-/

namespace Utilities

/-- A `std::string` value: the sequence of its `char`s. -/
abbrev Str := List Char

/-- The standard exceptions raised by the numeric conversions. -/
inductive Exn where
  | invalid_argument
  | out_of_range
  deriving DecidableEq, Repr

/-- What a call does: it returns a value, lets an exception escape, or never returns. -/
inductive Outcome (α : Type) where
  | returns (a : α)
  | throws (e : Exn)
  | diverges
  deriving DecidableEq, Repr

namespace String

/-- Scan of `std::string::find`: the text still to be searched, and the index of its
first character in the whole string. -/
def findFrom (needle : Str) : Str → Nat → Option Nat
  | [], i => if needle.isPrefixOf [] then some i else none
  | c :: cs, i => if needle.isPrefixOf (c :: cs) then some i else findFrom needle cs (i + 1)

/-- The call `s.find(needle, pos)`: the least index `i ≥ pos` at which `needle` occurs in
`s`, and `npos` (`none`) when there is none or `pos > s.size()`. -/
def find (s needle : Str) (pos : Nat) : Option Nat :=
  if pos ≤ s.length then findFrom needle (s.drop pos) pos else none

/-- The call `s.substr(pos, n)`, for `pos ≤ s.size()`. -/
def substr (s : Str) (pos n : Nat) : Str := (s.drop pos).take n

/-- The `while (end != npos)` loop of `split` with its three variables `start`, `end`,
`result`, followed by the final `push_back(a_str.substr(start))`. -/
def splitLoop (a_str a_delimiter : Str) : Nat → Nat → Option Nat → List Str → Option (List Str)
  | _, start, none, result => some (result ++ [a_str.drop start])
  | 0, _, some _, _ => none
  | fuel + 1, start, some stop, result =>
      splitLoop a_str a_delimiter fuel (stop + a_delimiter.length)
        (find a_str a_delimiter (stop + a_delimiter.length))
        (result ++ [substr a_str start (stop - start)])

/-- The function `Utilities::String::split` (lines 106-119). -/
def split (a_str a_delimiter : Str) : Option (List Str) :=
  splitLoop a_str a_delimiter a_str.length 0 (find a_str a_delimiter 0) []

/-- The C-locale `std::isxdigit`. -/
def isxdigit (ch : Char) : Bool :=
  ('0' ≤ ch && ch ≤ '9') || ('a' ≤ ch && ch ≤ 'f') || ('A' ≤ ch && ch ≤ 'F')

/-- The function `Utilities::String::is_only_hex` (lines 127-140); `compare(0, 2, lit) == 0`
holds exactly when `substr(0, 2)` equals the two-character literal. -/
def is_only_hex (a_str : Str) (a_requirePfx : Bool) : Bool :=
  if !a_requirePfx then
    a_str.all isxdigit
  else if substr a_str 0 2 == ['0', 'x'] || substr a_str 0 2 == ['0', 'X'] then
    decide (a_str.length > 2) && (a_str.drop 2).all isxdigit
  else
    false

/-- The C-locale `isspace`: space, and `\t \n \v \f \r` (codes 9 to 13). -/
def isspace (ch : Char) : Bool :=
  ch == ' ' || (9 ≤ ch.toNat && ch.toNat ≤ 13)

/-- Value of a character as a digit of `strtol`: `0-9`, then letters from 10, either case. -/
def digitValue (ch : Char) : Option Nat :=
  if '0' ≤ ch && ch ≤ '9' then some (ch.toNat - '0'.toNat)
  else if 'a' ≤ ch && ch ≤ 'z' then some (ch.toNat - 'a'.toNat + 10)
  else if 'A' ≤ ch && ch ≤ 'Z' then some (ch.toNat - 'A'.toNat + 10)
  else none

/-- A digit of the given base. -/
def baseDigit (base : Nat) (ch : Char) : Option Nat :=
  match digitValue ch with
  | some v => if v < base then some v else none
  | none => none

/-- The longest run of base digits at the head of the text, as a number; `none` when the
run is empty.  `acc` is the value of the digits read so far. -/
def scanDigits (base : Nat) : Str → Option Nat → Option Nat
  | [], acc => acc
  | c :: cs, acc =>
    match baseDigit base c with
    | some v => scanDigits base cs (some (base * acc.getD 0 + v))
    | none => acc

/-- The sign that `strtol` accepts in front of the digits. -/
def scanSign : Str → Bool × Str
  | '-' :: r => (true, r)
  | '+' :: r => (false, r)
  | r => (false, r)

/-- The optional `0x` / `0X` that `strtol` accepts in base 16; it is consumed only when a
hex digit follows it. -/
def skipHexMarker (base : Nat) (s : Str) : Str :=
  if base = 16 then
    match s with
    | '0' :: x :: h :: r =>
      if (x == 'x' || x == 'X') && (baseDigit 16 h).isSome then h :: r else s
    | _ => s
  else s

/-- The subject sequence of `strtol` / `strtoul`: white space, an optional sign, an
optional hex marker, digits.  The result is the sign and the exact value of the digits,
and `none` when no conversion can be performed. -/
def scanInteger (base : Nat) (s : Str) : Option (Bool × Nat) :=
  let signed := scanSign (s.dropWhile isspace)
  match scanDigits base (skipHexMarker base signed.2) none with
  | some m => some (signed.1, m)
  | none => none

/-- The function `std::stoul`: `invalid_argument` when nothing converts, `out_of_range`
when the digits exceed `ULONG_MAX`; a leading minus negates in the unsigned type. -/
def stoul (longBits : Nat) (s : Str) (base : Nat) : Except Exn Nat :=
  match scanInteger base s with
  | none => .error .invalid_argument
  | some (neg, m) =>
    if 2 ^ longBits ≤ m then .error .out_of_range
    else .ok (if neg then (2 ^ longBits - m) % 2 ^ longBits else m)

/-- The function `std::stoull` (`unsigned long long` has 64 bits). -/
def stoull (s : Str) (base : Nat) : Except Exn Nat := stoul 64 s base

/-- A signed conversion into `bits` bits: `out_of_range` outside `[-2^(bits-1), 2^(bits-1))`. -/
def stoSigned (bits : Nat) (s : Str) (base : Nat) : Except Exn Int :=
  match scanInteger base s with
  | none => .error .invalid_argument
  | some (neg, m) =>
    let v : Int := if neg then -(m : Int) else (m : Int)
    if v < -(2 ^ (bits - 1) : Int) ∨ (2 ^ (bits - 1) : Int) ≤ v then .error .out_of_range
    else .ok v

/-- The function `std::stol`. -/
def stol (longBits : Nat) (s : Str) (base : Nat) : Except Exn Int := stoSigned longBits s base

/-- The function `std::stoi` (`int` has 32 bits; a `long` result outside `int` is
`out_of_range`). -/
def stoi (s : Str) (base : Nat) : Except Exn Int := stoSigned 32 s base

/-- The integral result types `T` of `to_num<T>` that the file is used with. -/
inductive NumType where
  | int
  | uint32
  | int64
  | uint64
  deriving DecidableEq, Repr

/-- The conversion `static_cast<T>` from an integer value. -/
def NumType.cast : NumType → Int → Int
  | .int, v => (v + 2 ^ 31) % 2 ^ 32 - 2 ^ 31
  | .uint32, v => v % 2 ^ 32
  | .int64, v => (v + 2 ^ 63) % 2 ^ 64 - 2 ^ 63
  | .uint64, v => v % 2 ^ 64

/-- The function `Utilities::String::to_num<T>` (lines 151-174) for the integral `T`:
the `if constexpr` chain picks `stol` for `int64_t`, `stoull` for `uint64_t`, `stoi` for
the other signed types and `stoul` for the other unsigned types. -/
def to_num (longBits : Nat) (T : NumType) (a_str : Str) (a_hex : Bool) : Except Exn Int :=
  let base := if a_hex then 16 else 10
  match T with
  | .int64 =>
    match stol longBits a_str base with
    | .ok v => .ok (T.cast v)
    | .error e => .error e
  | .uint64 =>
    match stoull a_str base with
    | .ok v => .ok (T.cast (v : Int))
    | .error e => .error e
  | .int =>
    match stoi a_str base with
    | .ok v => .ok (T.cast v)
    | .error e => .error e
  | .uint32 =>
    match stoul longBits a_str base with
    | .ok v => .ok (T.cast (v : Int))
    | .error e => .error e

/-- The call `a_str.replace(pos, len, a_replace)`, for `pos ≤ a_str.size()`. -/
def replace (a_str : Str) (pos len : Nat) (a_replace : Str) : Str :=
  a_str.take pos ++ a_replace ++ a_str.drop (pos + len)

/-- The `while ((pos = a_str.find(a_search, pos)) != npos)` loop of `replace_all` with its
variables `a_str`, `pos` (as just assigned by the loop condition) and `wasReplaced`. -/
def replaceLoop (a_search a_replace : Str) : Nat → Str → Option Nat → Bool → Option (Str × Bool)
  | _, a_str, none, wasReplaced => some (a_str, wasReplaced)
  | 0, _, some _, _ => none
  | fuel + 1, a_str, some pos, _ =>
      replaceLoop a_search a_replace fuel (replace a_str pos a_search.length a_replace)
        (find (replace a_str pos a_search.length a_replace) a_search (pos + a_replace.length))
        true

/-- The function `Utilities::String::replace_all` (lines 195-210): the string left in
`a_str` and the returned flag. -/
def replace_all (a_str a_search a_replace : Str) : Option (Str × Bool) :=
  if a_search.isEmpty then some (a_str, false)
  else replaceLoop a_search a_replace a_str.length a_str (find a_str a_search 0) false

/-- The function `Utilities::String::SplitIntegers<T>` (lines 220-238) for the integral
`T`: the elements 0 and 1 of the split are converted in this order, each in base 16 when
`is_only_hex` (marker required) accepts it and in base 10 otherwise; an exception of
`to_num` escapes. -/
def SplitIntegers (longBits : Nat) (T : NumType) (a_str a_delimiter : Str) :
    Outcome (Int × Option Int) :=
  match split a_str a_delimiter with
  | none => .diverges
  | some [] => .throws .invalid_argument
  | some (first :: rest) =>
    match to_num longBits T first (is_only_hex first true) with
    | .error e => .throws e
    | .ok min =>
      match rest with
      | [] => .returns (min, none)
      | second :: _ =>
        match to_num longBits T second (is_only_hex second true) with
        | .error e => .throws e
        | .ok max => .returns (min, some max)

/-- The function `Utilities::String::SplitStrings` (lines 247-259): the pair starts as
`(a_str, nullopt)` and is overwritten by the elements 0 and 1 when `split.size() > 1`. -/
def SplitStrings (a_str a_delimiter : Str) : Outcome (Str × Option Str) :=
  match split a_str a_delimiter with
  | none => .diverges
  | some [] => .throws .invalid_argument
  | some (first :: second :: _) => .returns (first, some second)
  | some [_] => .returns (a_str, none)

end String

namespace Forms

/-- The host registry as seen by the resolver: `TESDataHandler::LookupModByName` (is the
result non-null), `TESDataHandler::LookupForm<T>(formID, modName)` and
`TESForm::LookupByEditorID<T>`. -/
structure Registry (T : Type) where
  LookupModByName : Str → Bool
  LookupForm : Nat → Str → Option T
  LookupByEditorID : Str → Option T

/-- The function `Utilities::Forms::GetFormFromString<T>` (lines 272-294);
`RE::FormID` is `std::uint32_t`. -/
def GetFormFromString {T : Type} (longBits : Nat) (reg : Registry T) (a_str : Str) :
    Outcome (Option T) :=
  match String.split a_str ['|'] with
  | none => .diverges
  | some [modName, idText] =>
    if !reg.LookupModByName modName then .returns none
    else if !String.is_only_hex idText true then .returns none
    else
      match String.to_num longBits .uint32 idText true with
      | .ok formID => .returns (reg.LookupForm formID.toNat modName)
      | .error _ => .returns none
  | some _ => .returns (reg.LookupByEditorID a_str)

end Forms

end Utilities

namespace Utilities

namespace String

/-! ## Specification-side vocabulary -/

/-- The elements of `parts` written one after the other with `d` between consecutive ones. -/
def joinWith (d : Str) : List Str → Str
  | [] => []
  | [x] => x
  | x :: y :: rest => x ++ d ++ joinWith d (y :: rest)

/-- The string `d` occurs in `s` (as a contiguous block). -/
def occursIn (d s : Str) : Prop := ∃ a b, s = a ++ d ++ b

/-- The delimiter `d` has no border: no non-empty proper beginning of `d` is also its end
(so two occurrences of `d` never overlap).  Every one-character delimiter is such. -/
def unbordered (d : Str) : Prop :=
  ∀ k, k < d.length → 0 < k → d.take k ≠ d.drop (d.length - k)

instance (d : Str) : Decidable (unbordered d) := by
  unfold unbordered; infer_instance

/-- The pieces of `t` cut at the left-to-right non-overlapping occurrences of `d`:
what is before the first occurrence, then the pieces of what follows it. -/
def pieces (d : Str) : Nat → Str → List Str
  | 0, t => [t]
  | n + 1, t =>
    match find t d 0 with
    | none => [t]
    | some e => t.take e :: pieces d n (t.drop (e + d.length))

/-- The hexadecimal digits. -/
def hexChars : List Char := "0123456789abcdefABCDEF".toList

/-- The value of a hexadecimal digit. -/
def hexDigitVal : Char → Nat
  | '0' => 0 | '1' => 1 | '2' => 2 | '3' => 3 | '4' => 4
  | '5' => 5 | '6' => 6 | '7' => 7 | '8' => 8 | '9' => 9
  | 'a' => 10 | 'b' => 11 | 'c' => 12 | 'd' => 13 | 'e' => 14 | 'f' => 15
  | 'A' => 10 | 'B' => 11 | 'C' => 12 | 'D' => 13 | 'E' => 14 | 'F' => 15
  | _ => 0

/-- The base-16 value of a run of hexadecimal digits, most significant digit first. -/
def hexValue (digits : Str) : Nat :=
  digits.foldl (fun acc ch => 16 * acc + hexDigitVal ch) 0

/-- The decimal digits. -/
def decChars : List Char := "0123456789".toList

/-- The value of a decimal digit. -/
def decDigitVal : Char → Nat
  | '0' => 0 | '1' => 1 | '2' => 2 | '3' => 3 | '4' => 4
  | '5' => 5 | '6' => 6 | '7' => 7 | '8' => 8 | '9' => 9
  | _ => 0

/-- The base-10 value of a run of decimal digits, most significant digit first. -/
def decValue (digits : Str) : Nat :=
  digits.foldl (fun acc ch => 10 * acc + decDigitVal ch) 0

/-- The text `lit` is a decimal literal of the integer `v`: one or more decimal digits,
with a `-` in front for the negated value. -/
def IsDecLiteral (lit : Str) (v : Int) : Prop :=
  ∃ digits : Str, digits ≠ [] ∧ (∀ ch ∈ digits, ch ∈ decChars) ∧
    ((lit = digits ∧ v = (decValue digits : Int)) ∨
      (lit = '-' :: digits ∧ v = -(decValue digits : Int)))

/-- The text `lit` is a hex literal of the integer `v`: `0x` or `0X`, then one or more hex
digits. -/
def IsHexLiteral (lit : Str) (v : Int) : Prop :=
  ∃ (x : Char) (digits : Str), (x = 'x' ∨ x = 'X') ∧ digits ≠ [] ∧
    (∀ ch ∈ digits, ch ∈ hexChars) ∧ lit = '0' :: x :: digits ∧ v = (hexValue digits : Int)

/-- The sign that may stand in front of the digits: none, `+` or `-`; the flag tells
whether it negates. -/
def signText : Option Bool → Str
  | none => []
  | some false => ['+']
  | some true => ['-']

/-- The integer written by a sign and a magnitude. -/
def signedValue (sign : Option Bool) (m : Nat) : Int :=
  if sign = some true then -(m : Int) else (m : Int)

/-- The text begins with a decimal number as `strtol` reads one: white space, then an
optional sign, then a decimal digit. -/
def startsWithDecimal (seg : Str) : Prop :=
  ∃ (ws : Str) (sign : Option Bool) (ch : Char) (rest : Str),
    seg = ws ++ signText sign ++ ch :: rest ∧ (∀ w ∈ ws, isspace w = true) ∧ ch ∈ decChars

/-- The text begins with a decimal number of value `v` as `strtol` reads one and ends it:
white space, an optional sign, one or more decimal digits, and then either nothing or a
character that is not a decimal digit (after which anything may follow). -/
def BeginsWithNumber (seg : Str) (v : Int) : Prop :=
  ∃ (ws : Str) (sign : Option Bool) (digits tail : Str),
    seg = ws ++ signText sign ++ digits ++ tail ∧ (∀ w ∈ ws, isspace w = true) ∧
    digits ≠ [] ∧ (∀ ch ∈ digits, ch ∈ decChars) ∧
    (∀ ch, tail.head? = some ch → ch ∉ decChars) ∧ v = signedValue sign (decValue digits)

/-- The number of left-to-right non-overlapping occurrences of `d` in the text; `skip` is
the number of characters at the head still covered by the occurrence counted last. -/
def countOccurrences (d : Str) : Str → Nat → Nat
  | [], _ => 0
  | c :: cs, 0 =>
    if d.isPrefixOf (c :: cs) then 1 + countOccurrences d cs (d.length - 1)
    else countOccurrences d cs 0
  | _ :: cs, skip + 1 => countOccurrences d cs skip

/-- A registry for the worked examples: the one loaded container `Skyrim.esm` holds the
object `1` under the id `0x3C2`, and the name index knows `MyKeywordEDID` (object `2`) and
the text `NotLoaded.esp|0x1` (object `3`). -/
def exampleRegistry : Forms.Registry Nat where
  LookupModByName := fun m => m == "Skyrim.esm".toList
  LookupForm := fun id m => if id = 0x3C2 ∧ m = "Skyrim.esm".toList then some 1 else none
  LookupByEditorID := fun name =>
    if name = "MyKeywordEDID".toList then some 2
    else if name = "NotLoaded.esp|0x1".toList then some 3
    else none

/-! ## Facts about `find` -/

theorem findFrom_shift (d : Str) (t : Str) (i : Nat) :
    findFrom d t i = (findFrom d t 0).map (fun k => k + i) := by
  induction t generalizing i with
  | nil => simp only [findFrom]; split <;> simp
  | cons c cs ih =>
    simp only [findFrom]
    split
    · simp
    · rw [ih (i + 1), ih (0 + 1)]
      cases findFrom d cs 0 <;> simp [Nat.add_comm, Nat.add_left_comm]

theorem findFrom_some (d : Str) (t : Str) (k : Nat) (h : findFrom d t 0 = some k) :
    k ≤ t.length ∧ d <+: t.drop k ∧ ∀ j, j < k → ¬ d <+: t.drop j := by
  induction t generalizing k with
  | nil =>
    simp only [findFrom] at h
    split at h
    · rename_i hp
      cases h
      exact ⟨Nat.le_refl _, by simpa using List.isPrefixOf_iff_prefix.mp hp, by simp⟩
    · cases h
  | cons c cs ih =>
    simp only [findFrom] at h
    split at h
    · rename_i hp
      cases h
      exact ⟨Nat.zero_le _, by simpa using List.isPrefixOf_iff_prefix.mp hp, by simp⟩
    · rename_i hp
      rw [findFrom_shift] at h
      cases hk : findFrom d cs 0 with
      | none => rw [hk] at h; cases h
      | some k' =>
        rw [hk] at h
        simp only [Option.map_some', Option.some.injEq] at h
        subst h
        obtain ⟨h1, h2, h3⟩ := ih k' hk
        refine ⟨by simpa using h1, by simpa using h2, ?_⟩
        intro j hj
        cases j with
        | zero =>
          intro hpre
          exact hp (List.isPrefixOf_iff_prefix.mpr (by simpa using hpre))
        | succ j => simpa using h3 j (by omega)

theorem findFrom_none (d : Str) (t : Str) (h : findFrom d t 0 = none) :
    ∀ j, j ≤ t.length → ¬ d <+: t.drop j := by
  induction t with
  | nil =>
    simp only [findFrom] at h
    split at h
    · cases h
    · rename_i hp
      intro j hj hpre
      exact hp (List.isPrefixOf_iff_prefix.mpr (by simpa using hpre))
  | cons c cs ih =>
    simp only [findFrom] at h
    split at h
    · cases h
    · rename_i hp
      rw [findFrom_shift] at h
      have hk : findFrom d cs 0 = none := by
        cases hc : findFrom d cs 0 with
        | none => rfl
        | some k => rw [hc] at h; cases h
      intro j hj
      cases j with
      | zero =>
        intro hpre
        exact hp (List.isPrefixOf_iff_prefix.mpr (by simpa using hpre))
      | succ j => simpa using ih hk j (by simpa using hj)

theorem find_zero (t d : Str) : find t d 0 = findFrom d t 0 := by
  simp [find]

theorem find_drop (s d : Str) (pos : Nat) (h : pos ≤ s.length) :
    find s d pos = (find (s.drop pos) d 0).map (fun k => k + pos) := by
  rw [find_zero, find, if_pos h, findFrom_shift]

/-- What `find` from position 0 reports when it finds something. -/
theorem find_zero_some (t d : Str) (k : Nat) (h : find t d 0 = some k) :
    k + d.length ≤ t.length ∧ t = t.take k ++ d ++ t.drop (k + d.length) ∧
      ∀ j, j < k → ¬ d <+: t.drop j := by
  rw [find_zero] at h
  obtain ⟨h1, ⟨r, hr⟩, h3⟩ := findFrom_some d t k h
  have hlen : (t.drop k).length = d.length + r.length := by rw [← hr]; simp
  have hlen2 : (t.drop k).length = t.length - k := by simp
  refine ⟨by omega, ?_, h3⟩
  have hd : t.drop (k + d.length) = r := by
    rw [← List.drop_drop, ← hr]; simp
  rw [hd, List.append_assoc, hr, List.take_append_drop]

theorem find_zero_none (t d : Str) (h : find t d 0 = none) :
    ∀ j, j ≤ t.length → ¬ d <+: t.drop j := by
  rw [find_zero] at h
  exact findFrom_none d t h

theorem find_zero_none_of_nil (d : Str) (hd : d ≠ []) : find [] d 0 = none := by
  cases d with
  | nil => exact absurd rfl hd
  | cons c cs => simp [find, findFrom, List.isPrefixOf]

/-- The loop of `split` from a position `start` produces the pieces of the rest. -/
theorem splitLoop_eq (s d : Str) (hd : d ≠ []) (fuel : Nat) :
    ∀ (start : Nat) (result : List Str), start ≤ s.length → s.length - start ≤ fuel →
      splitLoop s d fuel start (find s d start) result
        = some (result ++ pieces d fuel (s.drop start)) := by
  have hdl : 0 < d.length := List.length_pos.mpr hd
  induction fuel with
  | zero =>
    intro start result hs hf
    rw [find_drop s d start hs]
    cases hk : find (s.drop start) d 0 with
    | none => simp [splitLoop, pieces]
    | some k =>
      have := (find_zero_some _ _ _ hk).1
      simp at this
      omega
  | succ n ih =>
    intro start result hs hf
    rw [find_drop s d start hs]
    cases hk : find (s.drop start) d 0 with
    | none => simp [splitLoop, pieces, hk]
    | some k =>
      have hb := (find_zero_some _ _ _ hk).1
      simp only [List.length_drop] at hb
      simp only [Option.map_some', splitLoop, pieces, hk]
      rw [ih (k + start + d.length) _ (by omega) (by omega)]
      simp only [substr, List.drop_drop, Nat.add_sub_cancel, List.append_assoc,
        List.singleton_append]
      have e1 : start + (k + d.length) = k + start + d.length := by omega
      rw [e1]

/-- The function `split` terminates for a non-empty delimiter, with the pieces of its input. -/
theorem split_eq_pieces (s d : Str) (hd : d ≠ []) :
    split s d = some (pieces d s.length s) := by
  have := splitLoop_eq s d hd s.length 0 [] (Nat.zero_le _) (by simp)
  simpa [split] using this

theorem pieces_ne_nil (d : Str) (n : Nat) (t : Str) : pieces d n t ≠ [] := by
  cases n with
  | zero => simp [pieces]
  | succ n =>
    simp only [pieces]
    split <;> simp

theorem joinWith_cons (d x : Str) (l : List Str) (hl : l ≠ []) :
    joinWith d (x :: l) = x ++ d ++ joinWith d l := by
  cases l with
  | nil => exact absurd rfl hl
  | cons y r => rfl

theorem joinWith_pieces (d : Str) (hd : d ≠ []) (n : Nat) :
    ∀ t : Str, t.length ≤ n → joinWith d (pieces d n t) = t := by
  have hdl : 0 < d.length := List.length_pos.mpr hd
  induction n with
  | zero => intro t _; simp [pieces, joinWith]
  | succ n ih =>
    intro t ht
    simp only [pieces]
    cases hk : find t d 0 with
    | none => simp [joinWith]
    | some k =>
      obtain ⟨hb, heq, -⟩ := find_zero_some _ _ _ hk
      simp only
      rw [joinWith_cons _ _ _ (pieces_ne_nil _ _ _), ih _ (by simp; omega)]
      exact heq.symm

theorem find_zero_none_iff (t d : Str) : find t d 0 = none ↔ ¬ occursIn d t := by
  constructor
  · rintro h ⟨a, b, rfl⟩
    refine find_zero_none _ d h a.length (by simp) ?_
    simp [List.append_assoc]
  · intro h
    cases hk : find t d 0 with
    | none => rfl
    | some k =>
      exact absurd ⟨_, _, (find_zero_some _ _ _ hk).2.1⟩ h

theorem pieces_of_find_none (d : Str) (n : Nat) (t : Str) (h : find t d 0 = none) :
    pieces d n t = [t] := by
  cases n <;> simp [pieces, h]

theorem pieces_nil (d : Str) (hd : d ≠ []) (n : Nat) : pieces d n [] = [[]] :=
  pieces_of_find_none d n [] (find_zero_none_of_nil d hd)

theorem pieces_length_one (d : Str) (hd : d ≠ []) (n : Nat) (t : Str) (ht : t.length ≤ n) :
    (pieces d n t).length = 1 ↔ find t d 0 = none := by
  constructor
  · intro h
    cases n with
    | zero =>
      have : t = [] := List.length_eq_zero.mp (by omega)
      subst this
      exact find_zero_none_of_nil d hd
    | succ n =>
      cases hk : find t d 0 with
      | none => rfl
      | some k =>
        simp only [pieces, hk, List.length_cons] at h
        have := List.length_pos.mpr (pieces_ne_nil d n (List.drop (k + d.length) t))
        omega
  · intro h
    rw [pieces_of_find_none d n t h]
    rfl

theorem getLast?_cons_of_ne_nil (x : Str) (l : List Str) (hl : l ≠ []) :
    (x :: l).getLast? = l.getLast? := by
  cases l with
  | nil => exact absurd rfl hl
  | cons y r => simp [List.getLast?_cons_cons]

/-- A delimiter without a border ends the last piece of every text it ends. -/
theorem pieces_getLast (d : Str) (hd : d ≠ [])
    (hb : ∀ x : Str, x ≠ [] → x <+: d → x <:+ d → x = d) (n : Nat) :
    ∀ t : Str, t.length ≤ n → d <:+ t → (pieces d n t).getLast? = some [] := by
  induction n with
  | zero =>
    intro t ht hs
    have : t = [] := List.length_eq_zero.mp (by omega)
    subst this
    exact absurd (List.suffix_nil.mp hs) hd
  | succ n ih =>
    intro t ht hs
    cases hk : find t d 0 with
    | none =>
      obtain ⟨u, hu⟩ := hs
      exact absurd ⟨u, [], by simp [hu]⟩ ((find_zero_none_iff t d).mp hk)
    | some k =>
      obtain ⟨hlen, heq, -⟩ := find_zero_some _ _ _ hk
      have hdl : 0 < d.length := List.length_pos.mpr hd
      simp only [pieces, hk]
      rw [getLast?_cons_of_ne_nil _ _ (pieces_ne_nil _ _ _)]
      by_cases hsuf : d <:+ t.drop (k + d.length)
      · exact ih _ (by simp; omega) hsuf
      · have ht1 : t.drop (k + d.length) <:+ t := List.drop_suffix _ _
        have hle : (t.drop (k + d.length)).length ≤ d.length := by
          by_contra hc
          exact hsuf (List.suffix_of_suffix_length_le hs ht1 (by omega))
        obtain ⟨x, hx⟩ := List.suffix_of_suffix_length_le ht1 hs hle
        obtain ⟨u, hu⟩ := hs
        have hxne : x ≠ [] := by
          rintro rfl
          apply hsuf
          simp only [List.nil_append] at hx
          rw [hx]
        have hxpre : x <+: d := ⟨_, hx⟩
        have hxsuf : x <:+ d := by
          have h1 : List.take k t ++ d = u ++ x := by
            have h2 : (List.take k t ++ d) ++ t.drop (k + d.length)
                = (u ++ x) ++ t.drop (k + d.length) := by
              rw [← heq, List.append_assoc, hx, hu]
            exact List.append_cancel_right h2
          have hx1 : x <:+ List.take k t ++ d := ⟨u, h1.symm⟩
          exact List.suffix_of_suffix_length_le hx1 (List.suffix_append _ _)
            hxpre.length_le
        have hxd := hb x hxne hxpre hxsuf
        rw [hxd] at hx
        have hnil : t.drop (k + d.length) = [] := by
          have := congrArg List.length hx
          simp only [List.length_append] at this
          exact List.length_eq_zero.mp (by omega)
        rw [hnil, pieces_nil d hd]
        rfl

/-- The loop of `replace_all` from a position `pos`: what is before `pos` stays, and the
rest is cut into its pieces, which are joined by the replacement. -/
theorem replaceLoop_eq (a b : Str) (ha : a ≠ []) (fuel : Nat) :
    ∀ (str : Str) (pos : Nat) (was : Bool), pos ≤ str.length → str.length - pos ≤ fuel →
      replaceLoop a b fuel str (find str a pos) was
        = some (str.take pos ++ joinWith b (pieces a fuel (str.drop pos)),
            was || (find str a pos).isSome) := by
  have hal : 0 < a.length := List.length_pos.mpr ha
  induction fuel with
  | zero =>
    intro str pos was hs hf
    rw [find_drop str a pos hs]
    cases hk : find (str.drop pos) a 0 with
    | none => simp [replaceLoop, pieces, joinWith]
    | some k =>
      have := (find_zero_some _ _ _ hk).1
      simp at this
      omega
  | succ n ih =>
    intro str pos was hs hf
    rw [find_drop str a pos hs]
    cases hk : find (str.drop pos) a 0 with
    | none => simp [replaceLoop, pieces, joinWith, hk]
    | some k =>
      obtain ⟨hb, heq, -⟩ := find_zero_some _ _ _ hk
      simp only [List.length_drop] at hb
      have hlen1 : (str.take (k + pos) ++ b).length = k + pos + b.length := by
        simp only [List.length_append, List.length_take]
        omega
      have htake : (replace str (k + pos) a.length b).take (k + pos + b.length)
          = str.take (k + pos) ++ b := by
        unfold replace
        exact List.take_left' hlen1
      have hdrop : (replace str (k + pos) a.length b).drop (k + pos + b.length)
          = str.drop (k + pos + a.length) := by
        unfold replace
        exact List.drop_left' hlen1
      have hlen : (replace str (k + pos) a.length b).length
          = k + pos + b.length + (str.length - (k + pos + a.length)) := by
        unfold replace
        rw [List.length_append, hlen1, List.length_drop]
      simp only [Option.map_some', replaceLoop]
      rw [ih _ _ _ (by omega) (by omega), htake, hdrop]
      simp only [pieces, hk, Option.isSome_some, Bool.or_true, Option.some.injEq,
        Prod.mk.injEq, and_true, List.drop_drop]
      rw [joinWith_cons _ _ _ (pieces_ne_nil _ _ _)]
      have e1 : pos + (k + a.length) = k + pos + a.length := by omega
      have e2 : str.take (k + pos) = str.take pos ++ (str.drop pos).take k := by
        rw [Nat.add_comm k pos, List.take_add]
      rw [e1, e2]
      simp only [List.append_assoc, Bool.true_or, and_self]

/-! ## A one-character delimiter -/

theorem findFrom_single_none (x : Char) (t : Str) (i : Nat) (h : x ∉ t) :
    findFrom [x] t i = none := by
  induction t generalizing i with
  | nil => simp [findFrom, List.isPrefixOf]
  | cons a r ih =>
    simp only [List.mem_cons, not_or] at h
    simp only [findFrom, List.isPrefixOf, Bool.and_true, beq_iff_eq]
    rw [if_neg h.1]
    exact ih (i + 1) h.2

theorem findFrom_single_some (x : Char) (c r : Str) (i : Nat) (h : x ∉ c) :
    findFrom [x] (c ++ x :: r) i = some (i + c.length) := by
  induction c generalizing i with
  | nil => simp [findFrom, List.isPrefixOf]
  | cons a c ih =>
    simp only [List.mem_cons, not_or] at h
    simp only [List.cons_append, findFrom, List.isPrefixOf, Bool.and_true, beq_iff_eq]
    rw [if_neg h.1]
    have := ih (i + 1) h.2
    simp only [List.length_cons]
    rw [show i + (c.length + 1) = i + 1 + c.length from by omega]
    exact this

theorem pieces_single_count (x : Char) (n : Nat) :
    ∀ t : Str, t.length ≤ n → (pieces [x] n t).length = t.count x + 1 := by
  induction n with
  | zero =>
    intro t ht
    have : t = [] := List.length_eq_zero.mp (by omega)
    subst this
    simp [pieces]
  | succ n ih =>
    intro t ht
    by_cases hx : x ∈ t
    · obtain ⟨c, r, rfl, hc⟩ := List.eq_append_cons_of_mem hx
      have hf : find (c ++ x :: r) [x] 0 = some c.length := by
        rw [find_zero, findFrom_single_some x c r 0 hc, Nat.zero_add]
      have hr : r.length ≤ n := by
        simp only [List.length_append, List.length_cons] at ht
        omega
      simp only [pieces, hf, List.length_cons, List.length_nil, List.drop_left', List.count_append,
        List.count_cons_self, List.count_eq_zero_of_not_mem hc,
        show List.drop (c.length + (0 + 1)) (c ++ x :: r) = r from by
          rw [← List.drop_drop]; simp]
      rw [ih r hr]
      omega
    · have hf : find t [x] 0 = none := by
        rw [find_zero]; exact findFrom_single_none x t 0 hx
      rw [pieces_of_find_none _ _ _ hf, List.count_eq_zero_of_not_mem hx]
      rfl

theorem split_single_two (x : Char) (c r : Str) (hc : x ∉ c) (hr : x ∉ r) :
    split (c ++ x :: r) [x] = some [c, r] := by
  rw [split_eq_pieces _ _ (by simp)]
  have hf : find (c ++ x :: r) [x] 0 = some c.length := by
    rw [find_zero, findFrom_single_some x c r 0 hc, Nat.zero_add]
  have hf2 : find r [x] 0 = none := by
    rw [find_zero]; exact findFrom_single_none x r 0 hr
  have hl : (c ++ x :: r).length = (c.length + r.length) + 1 := by
    simp only [List.length_append, List.length_cons]; omega
  rw [hl]
  simp only [pieces, hf]
  have hd : List.drop (c.length + [x].length) (c ++ x :: r) = r := by
    rw [← List.drop_drop]; simp
  rw [hd, pieces_of_find_none _ _ _ hf2]
  simp

/-! ## Hexadecimal digits -/

theorem char_eq_ofNat_toNat (c : Char) (n : Nat) (h : c.toNat = n) : c = Char.ofNat n := by
  subst h; exact (Char.ofNat_toNat c).symm

theorem char_le_iff_toNat (a b : Char) : a ≤ b ↔ a.toNat ≤ b.toNat := by
  rw [Char.le_def]; exact UInt32.le_def

theorem isxdigit_iff (c : Char) : isxdigit c = true ↔ c ∈ hexChars := by
  constructor
  · intro h
    simp only [isxdigit, Bool.or_eq_true, Bool.and_eq_true, decide_eq_true_eq,
      char_le_iff_toNat] at h
    have e := char_eq_ofNat_toNat c c.toNat rfl
    generalize c.toNat = n at h e
    have h' : ((48 ≤ n ∧ n ≤ 57) ∨ (97 ≤ n ∧ n ≤ 102)) ∨ (65 ≤ n ∧ n ≤ 70) := by
      simpa using h
    subst e
    rcases h' with (⟨h1, h2⟩ | ⟨h1, h2⟩) | ⟨h1, h2⟩ <;> interval_cases n <;> decide
  · intro h
    revert c
    decide

theorem baseDigit_hex : ∀ c ∈ hexChars, baseDigit 16 c = some (hexDigitVal c) := by
  decide

theorem scanDigits_hex (digits : Str) (h : ∀ c ∈ digits, c ∈ hexChars) (acc : Nat) :
    scanDigits 16 digits (some acc)
      = some (digits.foldl (fun a ch => 16 * a + hexDigitVal ch) acc) := by
  induction digits generalizing acc with
  | nil => rfl
  | cons c cs ih =>
    have hc := baseDigit_hex c (h c (List.mem_cons_self _ _))
    simp only [scanDigits, hc, Option.getD_some, List.foldl_cons]
    exact ih (fun x hx => h x (List.mem_cons_of_mem _ hx)) _

theorem scanDigits_hex_none (digits : Str) (hne : digits ≠ [])
    (h : ∀ c ∈ digits, c ∈ hexChars) :
    scanDigits 16 digits none = some (hexValue digits) := by
  cases digits with
  | nil => exact absurd rfl hne
  | cons c cs =>
    have hc := baseDigit_hex c (h c (List.mem_cons_self _ _))
    simp only [scanDigits, hc, Option.getD_none, hexValue, List.foldl_cons]
    exact scanDigits_hex cs (fun x hx => h x (List.mem_cons_of_mem _ hx)) _

/-- The conversion of a prefixed hex literal whose value fits in 32 bits. -/
theorem to_num_uint32_hex (longBits : Nat) (hL : 32 ≤ longBits) (x : Char)
    (hx : x = 'x' ∨ x = 'X') (digits : Str) (hne : digits ≠ [])
    (h : ∀ c ∈ digits, c ∈ hexChars) (hv : hexValue digits < 2 ^ 32) :
    to_num longBits .uint32 ('0' :: x :: digits) true = .ok (hexValue digits : Int) := by
  have hscan : scanInteger 16 ('0' :: x :: digits) = some (false, hexValue digits) := by
    cases digits with
    | nil => exact absurd rfl hne
    | cons c cs =>
      have hc := baseDigit_hex c (h c (List.mem_cons_self _ _))
      have h0 : isspace '0' = false := by decide
      have hs : scanSign ('0' :: x :: c :: cs) = (false, '0' :: x :: c :: cs) := rfl
      have hm : skipHexMarker 16 ('0' :: x :: c :: cs) = c :: cs := by
        rcases hx with rfl | rfl <;> simp [skipHexMarker, hc]
      have hdw : List.dropWhile isspace ('0' :: x :: c :: cs) = '0' :: x :: c :: cs := by
        rw [List.dropWhile_cons, h0]; rfl
      simp only [scanInteger, hdw, hs, hm]
      rw [scanDigits_hex_none (c :: cs) hne h]
  have hpow : (2 : Nat) ^ 32 ≤ 2 ^ longBits := Nat.pow_le_pow_right (by decide) hL
  have hlt : ¬ 2 ^ longBits ≤ hexValue digits := by omega
  have hcast : ((hexValue digits : Nat) : Int) % 2 ^ 32 = ((hexValue digits : Nat) : Int) := by
    have : ((hexValue digits : Nat) : Int) % 2 ^ 32
        = ((hexValue digits % 2 ^ 32 : Nat) : Int) := by norm_cast
    rw [this, Nat.mod_eq_of_lt hv]
  simp only [to_num, stoul, hscan, if_true, if_neg hlt, NumType.cast, Bool.false_eq_true,
    if_false, hcast]

theorem is_only_hex_false_iff (s : Str) :
    is_only_hex s false = true ↔ ∀ c ∈ s, c ∈ hexChars := by
  simp [is_only_hex, List.all_eq_true, isxdigit_iff]

theorem is_only_hex_true_iff (s : Str) :
    is_only_hex s true = true ↔
      3 ≤ s.length ∧ (s.take 2 = ['0', 'x'] ∨ s.take 2 = ['0', 'X']) ∧
        ∀ c ∈ s.drop 2, c ∈ hexChars := by
  simp only [is_only_hex, substr, List.drop_zero, Bool.not_true, Bool.false_eq_true, if_false,
    Bool.or_eq_true, beq_iff_eq]
  constructor
  · intro h
    split at h
    · rename_i hp
      simp only [Bool.and_eq_true, decide_eq_true_eq, List.all_eq_true, isxdigit_iff] at h
      exact ⟨h.1, hp, h.2⟩
    · cases h
  · rintro ⟨h1, h2, h3⟩
    rw [if_pos h2]
    simp only [Bool.and_eq_true, decide_eq_true_eq, List.all_eq_true, isxdigit_iff]
    exact ⟨h1, h3⟩

end String

namespace Forms

open String

/-! ## The resolver after the split -/

theorem GetFormFromString_of_split_ne_two {T : Type} (longBits : Nat) (reg : Registry T)
    (raw : Str) (parts : List Str) (h : split raw ['|'] = some parts) (hl : parts.length ≠ 2) :
    GetFormFromString longBits reg raw = .returns (reg.LookupByEditorID raw) := by
  unfold GetFormFromString
  rw [h]
  match parts, hl with
  | [], _ => rfl
  | [_], _ => rfl
  | [_, _], hl => exact absurd rfl hl
  | _ :: _ :: _ :: _, _ => rfl

theorem GetFormFromString_of_split_two {T : Type} (longBits : Nat) (reg : Registry T)
    (raw c h : Str) (hs : split raw ['|'] = some [c, h]) :
    GetFormFromString longBits reg raw =
      if !reg.LookupModByName c then .returns none
      else if !is_only_hex h true then .returns none
      else
        match to_num longBits .uint32 h true with
        | .ok formID => .returns (reg.LookupForm formID.toNat c)
        | .error _ => .returns none := by
  unfold GetFormFromString
  rw [hs]

end Forms

end Utilities

namespace Utilities

namespace String

theorem unbordered_border (d : Str) (hu : unbordered d) (x : Str) (hx : x ≠ [])
    (hp : x <+: d) (hs : x <:+ d) : x = d := by
  have hle := hp.length_le
  have hpos : 0 < x.length := List.length_pos.mpr hx
  by_cases hlt : x.length < d.length
  · exfalso
    apply hu x.length hlt hpos
    have e1 : d.take x.length = x := by
      obtain ⟨r, rfl⟩ := hp
      simp
    have e2 : d.drop (d.length - x.length) = x := by
      obtain ⟨r, rfl⟩ := hs
      simp
    rw [e1, e2]
  · exact hp.eq_of_length (by omega)

end String

end Utilities

namespace Utilities

namespace String

/-! ## The first cut, and counting occurrences -/

theorem pieces_of_find_some (d : Str) (hd : d ≠ []) (t : Str) (e : Nat)
    (h : find t d 0 = some e) :
    pieces d t.length t = t.take e :: pieces d (t.length - 1) (t.drop (e + d.length)) := by
  have hdl : 0 < d.length := List.length_pos.mpr hd
  have hb := (find_zero_some t d e h).1
  obtain ⟨n, hn⟩ : ∃ n, t.length = n + 1 := ⟨t.length - 1, by omega⟩
  rw [hn]
  simp only [pieces, h, Nat.add_sub_cancel]

theorem find_zero_some_le (t d : Str) (e : Nat) (h : find t d 0 = some e) (a b : Str)
    (hab : t = a ++ d ++ b) : e ≤ a.length := by
  by_contra hlt
  apply (find_zero_some t d e h).2.2 a.length (by omega)
  rw [hab]
  simp [List.append_assoc]

theorem not_occursIn_take (t d : Str) (hd : d ≠ []) (e : Nat) (h : find t d 0 = some e) :
    ¬ occursIn d (t.take e) := by
  rintro ⟨a, b, hab⟩
  obtain ⟨hb, heq, -⟩ := find_zero_some t d e h
  have hdl : 0 < d.length := List.length_pos.mpr hd
  have hle : e ≤ a.length := by
    apply find_zero_some_le t d e h a (b ++ t.drop e)
    conv_lhs => rw [← List.take_append_drop e t, hab]
    simp [List.append_assoc]
  have hlen := congrArg List.length hab
  simp only [List.length_take, List.length_append] at hlen
  omega

theorem not_occursIn_pieces (d : Str) (hd : d ≠ []) (n : Nat) :
    ∀ t : Str, t.length ≤ n → ∀ p ∈ pieces d n t, ¬ occursIn d p := by
  have hdl : 0 < d.length := List.length_pos.mpr hd
  induction n with
  | zero =>
    intro t ht p hp
    have : t = [] := List.length_eq_zero.mp (by omega)
    subst this
    simp only [pieces, List.mem_singleton] at hp
    subst hp
    exact (find_zero_none_iff [] d).mp (find_zero_none_of_nil d hd)
  | succ n ih =>
    intro t ht p hp
    simp only [pieces] at hp
    cases hk : find t d 0 with
    | none =>
      rw [hk] at hp
      simp only [List.mem_singleton] at hp
      subst hp
      exact (find_zero_none_iff p d).mp hk
    | some k =>
      rw [hk] at hp
      simp only [List.mem_cons] at hp
      rcases hp with rfl | hp
      · exact not_occursIn_take t d hd k hk
      · exact ih _ (by simp only [List.length_drop]; omega) p hp

theorem countOccurrences_skip (d : Str) (t : Str) (k : Nat) :
    countOccurrences d t k = countOccurrences d (t.drop k) 0 := by
  induction t generalizing k with
  | nil => simp [countOccurrences]
  | cons c cs ih =>
    cases k with
    | zero => rfl
    | succ k => simp only [countOccurrences, List.drop_succ_cons]; exact ih k

theorem countOccurrences_of_findFrom_none (d : Str) (t : Str)
    (h : findFrom d t 0 = none) : countOccurrences d t 0 = 0 := by
  induction t with
  | nil => rfl
  | cons c cs ih =>
    simp only [findFrom] at h
    split at h
    · cases h
    · rename_i hp
      rw [findFrom_shift] at h
      have hk : findFrom d cs 0 = none := by
        cases hc : findFrom d cs 0 with
        | none => rfl
        | some k => rw [hc] at h; cases h
      simp only [countOccurrences, hp, Bool.false_eq_true, if_false]
      exact ih hk

theorem countOccurrences_of_findFrom_some (d : Str) (hd : d ≠ []) (t : Str) (e : Nat)
    (h : findFrom d t 0 = some e) :
    countOccurrences d t 0 = 1 + countOccurrences d (t.drop (e + d.length)) 0 := by
  have hdl : 0 < d.length := List.length_pos.mpr hd
  induction t generalizing e with
  | nil =>
    cases d with
    | nil => exact absurd rfl hd
    | cons x r => simp [findFrom, List.isPrefixOf] at h
  | cons c cs ih =>
    simp only [findFrom] at h
    split at h
    · rename_i hp
      cases h
      simp only [countOccurrences, hp, if_true, Nat.zero_add]
      rw [countOccurrences_skip]
      obtain ⟨m, hm⟩ : ∃ m, d.length = m + 1 := ⟨d.length - 1, by omega⟩
      rw [hm]
      simp
    · rename_i hp
      rw [findFrom_shift] at h
      cases hk : findFrom d cs 0 with
      | none => rw [hk] at h; cases h
      | some k =>
        rw [hk] at h
        simp only [Option.map_some', Option.some.injEq] at h
        subst h
        simp only [countOccurrences, hp, Bool.false_eq_true, if_false]
        rw [ih k hk]
        have : k + (0 + 1) + d.length = (k + d.length) + 1 := by omega
        rw [this, List.drop_succ_cons]

theorem pieces_length_countOccurrences (d : Str) (hd : d ≠ []) (n : Nat) :
    ∀ t : Str, t.length ≤ n → (pieces d n t).length = countOccurrences d t 0 + 1 := by
  have hdl : 0 < d.length := List.length_pos.mpr hd
  induction n with
  | zero =>
    intro t ht
    have : t = [] := List.length_eq_zero.mp (by omega)
    subst this
    rfl
  | succ n ih =>
    intro t ht
    simp only [pieces]
    cases hk : find t d 0 with
    | none =>
      rw [find_zero] at hk
      rw [countOccurrences_of_findFrom_none d t hk]
      rfl
    | some k =>
      have hb := (find_zero_some t d k hk).1
      rw [find_zero] at hk
      rw [countOccurrences_of_findFrom_some d hd t k hk]
      simp only [List.length_cons]
      rw [ih _ (by simp only [List.length_drop]; omega)]
      omega

end String

end Utilities

namespace Utilities

namespace String

/-! ## Decimal and hexadecimal literals -/

theorem baseDigit_dec : ∀ c ∈ decChars, baseDigit 10 c = some (decDigitVal c) := by
  decide

theorem isspace_dec : ∀ c ∈ decChars, isspace c = false := by
  decide

theorem scanSign_dec : ∀ c ∈ decChars, ∀ r : Str, scanSign (c :: r) = (false, c :: r) := by
  intro c hc r
  have hminus : c ≠ '-' := by
    rintro rfl
    exact absurd hc (by decide)
  have hplus : c ≠ '+' := by
    rintro rfl
    exact absurd hc (by decide)
  unfold scanSign
  split
  · rename_i heq
    simp only [List.cons.injEq] at heq
    exact absurd heq.1 hminus
  · rename_i heq
    simp only [List.cons.injEq] at heq
    exact absurd heq.1 hplus
  · rfl

theorem scanDigits_dec (digits : Str) (h : ∀ c ∈ digits, c ∈ decChars) (acc : Nat) :
    scanDigits 10 digits (some acc)
      = some (digits.foldl (fun a ch => 10 * a + decDigitVal ch) acc) := by
  induction digits generalizing acc with
  | nil => rfl
  | cons c cs ih =>
    have hc := baseDigit_dec c (h c (List.mem_cons_self _ _))
    simp only [scanDigits, hc, Option.getD_some, List.foldl_cons]
    exact ih (fun x hx => h x (List.mem_cons_of_mem _ hx)) _

theorem scanDigits_dec_none (digits : Str) (hne : digits ≠ [])
    (h : ∀ c ∈ digits, c ∈ decChars) :
    scanDigits 10 digits none = some (decValue digits) := by
  cases digits with
  | nil => exact absurd rfl hne
  | cons c cs =>
    have hc := baseDigit_dec c (h c (List.mem_cons_self _ _))
    simp only [scanDigits, hc, Option.getD_none, decValue, List.foldl_cons]
    exact scanDigits_dec cs (fun x hx => h x (List.mem_cons_of_mem _ hx)) _

/-- What `strtol` reads in base 10 from an optional sign followed by decimal digits. -/
theorem scanInteger_dec (sign : Option Bool) (digits : Str) (hne : digits ≠ [])
    (h : ∀ c ∈ digits, c ∈ decChars) :
    scanInteger 10 (signText sign ++ digits)
      = some (decide (sign = some true), decValue digits) := by
  have hsk : skipHexMarker 10 digits = digits := by simp [skipHexMarker]
  cases digits with
  | nil => exact absurd rfl hne
  | cons c cs =>
    have hc := h c (List.mem_cons_self _ _)
    have hsp := isspace_dec c hc
    match sign with
    | none =>
      have hdw : List.dropWhile isspace (c :: cs) = c :: cs := by
        rw [List.dropWhile_cons, hsp]; rfl
      simp only [scanInteger, signText, List.nil_append, hdw, scanSign_dec c hc cs, hsk]
      rw [scanDigits_dec_none (c :: cs) hne h]
      rfl
    | some true =>
      have hdw : List.dropWhile isspace ('-' :: c :: cs) = '-' :: c :: cs := by
        rw [List.dropWhile_cons, show isspace '-' = false from by decide]; rfl
      have hs : scanSign ('-' :: c :: cs) = (true, c :: cs) := rfl
      simp only [scanInteger, signText, List.singleton_append, hdw, hs, hsk]
      rw [scanDigits_dec_none (c :: cs) hne h]
      rfl
    | some false =>
      have hdw : List.dropWhile isspace ('+' :: c :: cs) = '+' :: c :: cs := by
        rw [List.dropWhile_cons, show isspace '+' = false from by decide]; rfl
      have hs : scanSign ('+' :: c :: cs) = (false, c :: cs) := rfl
      simp only [scanInteger, signText, List.singleton_append, hdw, hs, hsk]
      rw [scanDigits_dec_none (c :: cs) hne h]
      rfl

theorem cast_int_of_range (v : Int) (h1 : -(2 ^ 31 : Int) ≤ v) (h2 : v < (2 ^ 31 : Int)) :
    NumType.cast .int v = v := by
  simp only [NumType.cast]
  omega

/-- The conversion `to_num<int>` in base 10 of a sign and digits whose value fits. -/
theorem to_num_int_dec (longBits : Nat) (sign : Option Bool) (digits : Str)
    (hne : digits ≠ []) (h : ∀ c ∈ digits, c ∈ decChars)
    (h1 : -(2 ^ 31 : Int) ≤ signedValue sign (decValue digits))
    (h2 : signedValue sign (decValue digits) < (2 ^ 31 : Int)) :
    to_num longBits .int (signText sign ++ digits) false
      = .ok (signedValue sign (decValue digits)) := by
  have hc := cast_int_of_range _ h1 h2
  simp only [signedValue] at h1 h2 hc
  simp only [to_num, stoi, stoSigned, Bool.false_eq_true, if_false,
    scanInteger_dec sign digits hne h, decide_eq_true_eq, signedValue]
  rw [if_neg (by omega)]
  simp only [hc]

/-- The conversion `to_num<int>` in base 10 of a sign and digits whose value does not fit. -/
theorem to_num_int_dec_overflow (longBits : Nat) (sign : Option Bool) (digits : Str)
    (hne : digits ≠ []) (h : ∀ c ∈ digits, c ∈ decChars)
    (hout : signedValue sign (decValue digits) < -(2 ^ 31 : Int) ∨
      (2 ^ 31 : Int) ≤ signedValue sign (decValue digits)) :
    to_num longBits .int (signText sign ++ digits) false = .error .out_of_range := by
  simp only [signedValue] at hout
  simp only [to_num, stoi, stoSigned, Bool.false_eq_true, if_false,
    scanInteger_dec sign digits hne h, decide_eq_true_eq]
  rw [if_pos (by omega)]

/-- The conversion `to_num<uint32_t>` in base 10 of digits above `ULONG_MAX`. -/
theorem to_num_uint32_dec_overflow (longBits : Nat) (sign : Option Bool) (digits : Str)
    (hne : digits ≠ []) (h : ∀ c ∈ digits, c ∈ decChars)
    (hout : 2 ^ longBits ≤ decValue digits) :
    to_num longBits .uint32 (signText sign ++ digits) false = .error .out_of_range := by
  simp only [to_num, stoul, Bool.false_eq_true, if_false,
    scanInteger_dec sign digits hne h, if_pos hout]

/-- What `strtol` reads in base 16 from a prefixed hex literal. -/
theorem scanInteger_hex (x : Char) (hx : x = 'x' ∨ x = 'X') (digits : Str)
    (hne : digits ≠ []) (h : ∀ c ∈ digits, c ∈ hexChars) :
    scanInteger 16 ('0' :: x :: digits) = some (false, hexValue digits) := by
  cases digits with
  | nil => exact absurd rfl hne
  | cons c cs =>
    have hc := baseDigit_hex c (h c (List.mem_cons_self _ _))
    have h0 : isspace '0' = false := by decide
    have hs : scanSign ('0' :: x :: c :: cs) = (false, '0' :: x :: c :: cs) := rfl
    have hm : skipHexMarker 16 ('0' :: x :: c :: cs) = c :: cs := by
      rcases hx with rfl | rfl <;> simp [skipHexMarker, hc]
    have hdw : List.dropWhile isspace ('0' :: x :: c :: cs) = '0' :: x :: c :: cs := by
      rw [List.dropWhile_cons, h0]; rfl
    simp only [scanInteger, hdw, hs, hm]
    rw [scanDigits_hex_none (c :: cs) hne h]

theorem is_only_hex_hex_literal (x : Char) (hx : x = 'x' ∨ x = 'X') (digits : Str)
    (hne : digits ≠ []) (h : ∀ c ∈ digits, c ∈ hexChars) :
    is_only_hex ('0' :: x :: digits) true = true := by
  rw [is_only_hex_true_iff]
  refine ⟨?_, ?_, by simpa using h⟩
  · have := List.length_pos.mpr hne
    simp only [List.length_cons]
    omega
  · rcases hx with rfl | rfl <;> simp

theorem is_only_hex_dec_literal (sign : Option Bool) (digits : Str)
    (h : ∀ c ∈ digits, c ∈ decChars) :
    is_only_hex (signText sign ++ digits) true = false := by
  cases hh : is_only_hex (signText sign ++ digits) true with
  | false => rfl
  | true =>
    exfalso
    obtain ⟨h3, h2, -⟩ := (is_only_hex_true_iff _).mp hh
    rcases sign with _ | _ | _
    · rcases digits with _ | ⟨c, _ | ⟨c2, r⟩⟩
      · simp [signText] at h3
      · simp [signText] at h3
      · have hc2 : c2 ∈ decChars := h c2 (by simp)
        simp only [signText, List.nil_append, List.take_succ_cons, List.take_zero,
          List.cons.injEq, and_true] at h2
        rcases h2 with ⟨-, rfl⟩ | ⟨-, rfl⟩
        · exact absurd hc2 (by decide)
        · exact absurd hc2 (by decide)
    · rcases h2 with h2 | h2 <;> simp [signText] at h2
    · rcases h2 with h2 | h2 <;> simp [signText] at h2

/-- The conversion `to_num<int>` in base 16 of a prefixed hex literal whose value fits. -/
theorem to_num_int_hex (longBits : Nat) (x : Char) (hx : x = 'x' ∨ x = 'X') (digits : Str)
    (hne : digits ≠ []) (h : ∀ c ∈ digits, c ∈ hexChars)
    (hv : (hexValue digits : Int) < (2 ^ 31 : Int)) :
    to_num longBits .int ('0' :: x :: digits) true = .ok (hexValue digits : Int) := by
  have hc := cast_int_of_range (hexValue digits : Int) (by omega) hv
  simp only [to_num, stoi, stoSigned, if_true, scanInteger_hex x hx digits hne h,
    Bool.false_eq_true, if_false]
  rw [if_neg (by omega)]
  simp only [hc]

/-- The segment conversion of `SplitIntegers<int>` on a literal of a value that fits. -/
theorem to_num_int_of_literal (longBits : Nat) (lit : Str) (v : Int)
    (hl : IsDecLiteral lit v ∨ IsHexLiteral lit v)
    (h1 : -(2 ^ 31 : Int) ≤ v) (h2 : v < (2 ^ 31 : Int)) :
    to_num longBits .int lit (is_only_hex lit true) = .ok v := by
  rcases hl with ⟨digits, hne, hd, ⟨hlit, hv⟩ | ⟨hlit, hv⟩⟩ |
    ⟨x, digits, hx, hne, hd, hlit, hv⟩
  · rw [hv] at h1 h2
    have e := is_only_hex_dec_literal none digits hd
    have t := to_num_int_dec longBits none digits hne hd (by simpa [signedValue] using h1)
      (by simpa [signedValue] using h2)
    simp only [signText, List.nil_append, signedValue] at e t
    rw [hlit, hv, e]
    simpa using t
  · rw [hv] at h1 h2
    have e := is_only_hex_dec_literal (some true) digits hd
    have t := to_num_int_dec longBits (some true) digits hne hd
      (by simpa [signedValue] using h1) (by simpa [signedValue] using h2)
    simp only [signText, List.singleton_append, signedValue] at e t
    rw [hlit, hv, e]
    simpa using t
  · rw [hv] at h2
    rw [hlit, hv, is_only_hex_hex_literal x hx digits hne hd]
    exact to_num_int_hex longBits x hx digits hne hd h2

theorem comma_not_mem_literal (lit : Str) (v : Int)
    (hl : IsDecLiteral lit v ∨ IsHexLiteral lit v) : ',' ∉ lit := by
  rcases hl with ⟨digits, hne, hd, ⟨hlit, -⟩ | ⟨hlit, -⟩⟩ |
    ⟨x, digits, hx, hne, hd, hlit, -⟩
  · rw [hlit]
    intro hm
    exact absurd (hd _ hm) (by decide)
  · rw [hlit]
    intro hm
    rcases List.mem_cons.mp hm with h0 | hm
    · exact absurd h0 (by decide)
    · exact absurd (hd _ hm) (by decide)
  · rw [hlit]
    intro hm
    rcases List.mem_cons.mp hm with h0 | hm
    · exact absurd h0 (by decide)
    rcases List.mem_cons.mp hm with h1 | hm
    · rcases hx with rfl | rfl <;> exact absurd h1 (by decide)
    · exact absurd (hd _ hm) (by decide)

theorem split_single_one (x : Char) (t : Str) (h : x ∉ t) : split t [x] = some [t] := by
  rw [split_eq_pieces _ _ (by simp)]
  exact congrArg some (pieces_of_find_none [x] _ t
    (by rw [find_zero]; exact findFrom_single_none x t 0 h))

theorem is_only_hex_true_form (s : Str) (h : is_only_hex s true = true) :
    ∃ (x : Char) (digits : Str), (x = 'x' ∨ x = 'X') ∧ digits ≠ [] ∧
      (∀ c ∈ digits, c ∈ hexChars) ∧ s = '0' :: x :: digits ∧ s.drop 2 = digits := by
  obtain ⟨h3, h2, hd⟩ := (is_only_hex_true_iff s).mp h
  rcases s with _ | ⟨c0, _ | ⟨c1, _ | ⟨c2, r⟩⟩⟩
  · simp at h3
  · simp at h3
  · simp at h3
  · simp only [List.take_succ_cons, List.take_zero, List.cons.injEq, and_true] at h2
    refine ⟨c1, c2 :: r, ?_, by simp, by simpa using hd, ?_, rfl⟩
    · rcases h2 with ⟨-, h2⟩ | ⟨-, h2⟩
      · exact Or.inl h2
      · exact Or.inr h2
    · rcases h2 with ⟨h0, -⟩ | ⟨h0, -⟩ <;> rw [h0]

/-- The conversion `to_num<uint32_t>` in base 16 of a prefixed hex literal of any length. -/
theorem to_num_uint32_hex_eq (longBits : Nat) (x : Char) (hx : x = 'x' ∨ x = 'X')
    (digits : Str) (hne : digits ≠ []) (h : ∀ c ∈ digits, c ∈ hexChars) :
    to_num longBits .uint32 ('0' :: x :: digits) true
      = if 2 ^ longBits ≤ hexValue digits then .error .out_of_range
        else .ok ((hexValue digits : Int) % 2 ^ 32) := by
  simp only [to_num, stoul, if_true, scanInteger_hex x hx digits hne h, NumType.cast,
    Bool.false_eq_true, if_false]
  split_ifs <;> rfl

theorem to_num_int_nil (longBits : Nat) :
    to_num longBits .int [] (is_only_hex [] true) = .error .invalid_argument := rfl

theorem SplitIntegers_first_error (longBits : Nat) (T : NumType) (s d first : Str)
    (rest : List Str) (e : Exn) (hs : split s d = some (first :: rest))
    (h : to_num longBits T first (is_only_hex first true) = .error e) :
    SplitIntegers longBits T s d = .throws e := by
  simp only [SplitIntegers, hs, h]

theorem SplitIntegers_second_error (longBits : Nat) (T : NumType) (s d first second : Str)
    (rest : List Str) (hs : split s d = some (first :: second :: rest))
    (hne : to_num longBits T first (is_only_hex first true) ≠ .error .out_of_range)
    (h : to_num longBits T second (is_only_hex second true) = .error .invalid_argument) :
    SplitIntegers longBits T s d = .throws .invalid_argument := by
  cases hf : to_num longBits T first (is_only_hex first true) with
  | error e1 =>
    cases e1 with
    | invalid_argument => exact SplitIntegers_first_error longBits T s d first _ _ hs hf
    | out_of_range => exact absurd hf hne
  | ok v => simp only [SplitIntegers, hs, hf, h]

theorem split_cons_of_ne_nil (s d : Str) (hd : d ≠ []) :
    ∃ first rest, split s d = some (first :: rest) := by
  obtain ⟨x, l, hxl⟩ := List.exists_cons_of_ne_nil (pieces_ne_nil d s.length s)
  exact ⟨x, l, by rw [split_eq_pieces s d hd, hxl]⟩

theorem dec_of_baseDigit (ch : Char) (v : Nat) (h : baseDigit 10 ch = some v) :
    ch ∈ decChars := by
  simp only [baseDigit, digitValue, Bool.and_eq_true, decide_eq_true_eq,
    char_le_iff_toNat] at h
  have e := char_eq_ofNat_toNat ch ch.toNat rfl
  generalize ch.toNat = n at h e
  subst e
  have h0 : '0'.toNat = 48 := rfl
  have h9 : '9'.toNat = 57 := rfl
  have ha : 'a'.toNat = 97 := rfl
  have hz : 'z'.toNat = 122 := rfl
  have hA : 'A'.toNat = 65 := rfl
  have hZ : 'Z'.toNat = 90 := rfl
  rw [h0, h9, ha, hz, hA, hZ] at h
  by_cases c1 : 48 ≤ n ∧ n ≤ 57
  · obtain ⟨l, u⟩ := c1
    interval_cases n <;> decide
  · exfalso
    rw [if_neg c1] at h
    by_cases c2 : 97 ≤ n ∧ n ≤ 122
    · rw [if_pos c2] at h
      simp only at h
      split at h
      · omega
      · cases h
    · rw [if_neg c2] at h
      by_cases c3 : 65 ≤ n ∧ n ≤ 90
      · rw [if_pos c3] at h
        simp only at h
        split at h
        · omega
        · cases h
      · rw [if_neg c3] at h
        cases h

theorem scanDigits_none_some (base : Nat) (r : Str) (m : Nat)
    (h : scanDigits base r none = some m) :
    ∃ ch rest v, r = ch :: rest ∧ baseDigit base ch = some v := by
  cases r with
  | nil => cases h
  | cons ch rest =>
    cases hb : baseDigit base ch with
    | none => simp [scanDigits, hb] at h
    | some v => exact ⟨ch, rest, v, rfl, hb⟩

theorem scanSign_form (t : Str) : ∃ sign : Option Bool,
    t = signText sign ++ (scanSign t).2 := by
  unfold scanSign
  split
  · exact ⟨some true, rfl⟩
  · exact ⟨some false, rfl⟩
  · exact ⟨none, rfl⟩

theorem startsWithDecimal_of_scanInteger (seg : Str) (r : Bool × Nat)
    (h : scanInteger 10 seg = some r) : startsWithDecimal seg := by
  simp only [scanInteger] at h
  have hsk : ∀ t : Str, skipHexMarker 10 t = t := by intro t; simp [skipHexMarker]
  rw [hsk] at h
  cases hd : scanDigits 10 (scanSign (List.dropWhile isspace seg)).2 none with
  | none => rw [hd] at h; cases h
  | some m =>
    obtain ⟨ch, rest, v, hr, hb⟩ := scanDigits_none_some 10 _ m hd
    obtain ⟨sign, hs⟩ := scanSign_form (List.dropWhile isspace seg)
    refine ⟨List.takeWhile isspace seg, sign, ch, rest, ?_, ?_, dec_of_baseDigit ch v hb⟩
    · rw [List.append_assoc, ← hr, ← hs, List.takeWhile_append_dropWhile]
    · intro w hw
      exact (List.mem_takeWhile_imp hw)

/-- The conversion `to_num<int>` in base 10 of a text that does not begin with a number. -/
theorem to_num_int_no_number (longBits : Nat) (seg : Str) (h : ¬ startsWithDecimal seg) :
    to_num longBits .int seg false = .error .invalid_argument := by
  cases hs : scanInteger 10 seg with
  | none => simp only [to_num, stoi, stoSigned, Bool.false_eq_true, if_false, hs]
  | some r => exact absurd (startsWithDecimal_of_scanInteger seg r hs) h

theorem baseDigit_dec_none (ch : Char) (h : ch ∉ decChars) : baseDigit 10 ch = none := by
  cases hb : baseDigit 10 ch with
  | none => rfl
  | some v => exact absurd (dec_of_baseDigit ch v hb) h

theorem scanDigits_dec_tail (digits tail : Str) (h : ∀ c ∈ digits, c ∈ decChars)
    (ht : ∀ ch, tail.head? = some ch → ch ∉ decChars) (acc : Nat) :
    scanDigits 10 (digits ++ tail) (some acc)
      = some (digits.foldl (fun a ch => 10 * a + decDigitVal ch) acc) := by
  induction digits generalizing acc with
  | nil =>
    cases tail with
    | nil => rfl
    | cons c r =>
      have hc := baseDigit_dec_none c (ht c rfl)
      simp only [List.nil_append, scanDigits, hc, List.foldl_nil]
  | cons c cs ih =>
    have hc := baseDigit_dec c (h c (List.mem_cons_self _ _))
    simp only [List.cons_append, scanDigits, hc, Option.getD_some, List.foldl_cons]
    exact ih (fun x hx => h x (List.mem_cons_of_mem _ hx)) _

theorem scanDigits_dec_tail_none (digits tail : Str) (hne : digits ≠ [])
    (h : ∀ c ∈ digits, c ∈ decChars) (ht : ∀ ch, tail.head? = some ch → ch ∉ decChars) :
    scanDigits 10 (digits ++ tail) none = some (decValue digits) := by
  cases digits with
  | nil => exact absurd rfl hne
  | cons c cs =>
    have hc := baseDigit_dec c (h c (List.mem_cons_self _ _))
    simp only [List.cons_append, scanDigits, hc, Option.getD_none, decValue, List.foldl_cons]
    exact scanDigits_dec_tail cs tail (fun x hx => h x (List.mem_cons_of_mem _ hx)) ht _

theorem dropWhile_isspace_append (ws : Str) (c : Char) (r : Str)
    (hws : ∀ w ∈ ws, isspace w = true) (hc : isspace c = false) :
    List.dropWhile isspace (ws ++ c :: r) = c :: r := by
  induction ws with
  | nil => rw [List.nil_append, List.dropWhile_cons, hc]; rfl
  | cons w ws ih =>
    rw [List.cons_append, List.dropWhile_cons, hws w (List.mem_cons_self _ _), if_pos rfl]
    exact ih (fun x hx => hws x (List.mem_cons_of_mem _ hx))

/-- What `strtol` reads in base 10 from white space, an optional sign, decimal digits and
a rest that does not go on with a digit. -/
theorem scanInteger_dec_general (ws : Str) (sign : Option Bool) (digits tail : Str)
    (hws : ∀ w ∈ ws, isspace w = true) (hne : digits ≠ [])
    (h : ∀ c ∈ digits, c ∈ decChars) (ht : ∀ ch, tail.head? = some ch → ch ∉ decChars) :
    scanInteger 10 (ws ++ signText sign ++ digits ++ tail)
      = some (decide (sign = some true), decValue digits) := by
  have hsk : ∀ t : Str, skipHexMarker 10 t = t := by intro t; simp [skipHexMarker]
  have hscan := scanDigits_dec_tail_none digits tail hne h ht
  cases digits with
  | nil => exact absurd rfl hne
  | cons c cs =>
    have hc := h c (List.mem_cons_self _ _)
    rcases sign with _ | _ | _
    · have hdw := dropWhile_isspace_append ws c (cs ++ tail) hws (isspace_dec c hc)
      simp only [List.cons_append] at hscan
      simp only [signText, List.append_nil, List.append_assoc, List.cons_append]
      simp only [scanInteger, hdw, scanSign_dec c hc (cs ++ tail), hsk, hscan]
      rfl
    · have hdw := dropWhile_isspace_append ws '+' (c :: (cs ++ tail)) hws (by decide)
      have hs : scanSign ('+' :: c :: (cs ++ tail)) = (false, c :: (cs ++ tail)) := rfl
      simp only [List.cons_append] at hscan
      simp only [signText, List.append_assoc, List.singleton_append, List.cons_append,
        List.nil_append]
      simp only [scanInteger, hdw, hs, hsk, hscan]
      rfl
    · have hdw := dropWhile_isspace_append ws '-' (c :: (cs ++ tail)) hws (by decide)
      have hs : scanSign ('-' :: c :: (cs ++ tail)) = (true, c :: (cs ++ tail)) := rfl
      simp only [List.cons_append] at hscan
      simp only [signText, List.append_assoc, List.singleton_append, List.cons_append,
        List.nil_append]
      simp only [scanInteger, hdw, hs, hsk, hscan]
      rfl

/-- The segment conversion of `SplitIntegers<int>` on a text that is not a prefixed hex
literal and begins with a decimal number that fits. -/
theorem to_num_int_begins (longBits : Nat) (seg : Str) (v : Int)
    (hx : is_only_hex seg true = false) (hb : BeginsWithNumber seg v)
    (h1 : -(2 ^ 31 : Int) ≤ v) (h2 : v < (2 ^ 31 : Int)) :
    to_num longBits .int seg (is_only_hex seg true) = .ok v := by
  obtain ⟨ws, sign, digits, tail, hseg, hws, hne, hd, ht, hv⟩ := hb
  have hscan := scanInteger_dec_general ws sign digits tail hws hne hd ht
  rw [← hseg] at hscan
  have hc := cast_int_of_range v h1 h2
  rw [hv] at h1 h2 hc
  simp only [signedValue] at h1 h2 hc
  rw [hx, hv]
  simp only [to_num, stoi, stoSigned, Bool.false_eq_true, if_false, hscan,
    decide_eq_true_eq, signedValue]
  rw [if_neg (by omega)]
  simp only [hc]

end String

end Utilities

/-! ## The claims -/

namespace Utilities

open String Forms

/-- C1: for a composite reference `c|0x<digits>` (or `0X`) whose container `c` contains
no `|` and is loaded, and whose digits are one or more hex digits of value `v` below `2^32`,
`GetFormFromString` returns exactly the registry's typed lookup of `(v, c)`, object or
absent.  (The id part `0x<digits>` never contains `|`.) -/
theorem GetFormFromString_composite_lookup {T : Type} (longBits : Nat) (reg : Registry T)
    (c digits : Str) (x : Char) (hL : 32 ≤ longBits) (hc : '|' ∉ c)
    (hx : x = 'x' ∨ x = 'X') (hne : digits ≠ []) (hd : ∀ ch ∈ digits, ch ∈ hexChars)
    (hv : hexValue digits < 2 ^ 32) (hload : reg.LookupModByName c = true) :
    GetFormFromString longBits reg (c ++ '|' :: '0' :: x :: digits)
      = .returns (reg.LookupForm (hexValue digits) c) := by
  have hbar : '|' ∉ '0' :: x :: digits := by
    intro hm
    rcases List.mem_cons.mp hm with h0 | hm
    · exact absurd h0 (by decide)
    rcases List.mem_cons.mp hm with h1 | hm
    · rcases hx with rfl | rfl <;> exact absurd h1 (by decide)
    · exact absurd (hd _ hm) (by decide)
  have hhex : is_only_hex ('0' :: x :: digits) true = true := by
    rw [is_only_hex_true_iff]
    refine ⟨?_, ?_, by simpa using hd⟩
    · have := List.length_pos.mpr hne
      simp only [List.length_cons]
      omega
    · rcases hx with rfl | rfl <;> simp
  rw [GetFormFromString_of_split_two longBits reg _ c _ (split_single_two '|' c _ hc hbar),
    hload, hhex, to_num_uint32_hex longBits hL x hx digits hne hd hv]
  rfl

theorem GetFormFromString_composite_lookup_witness :
    GetFormFromString 32 exampleRegistry "Skyrim.esm|0x3C2".toList = .returns (some 1) ∧
    GetFormFromString 32 exampleRegistry "Skyrim.esm|0xFFFF".toList = .returns none :=
  ⟨GetFormFromString_composite_lookup 32 exampleRegistry "Skyrim.esm".toList "3C2".toList 'x'
      (by decide) (by decide) (by decide) (by decide) (by decide) (by decide) (by decide),
   GetFormFromString_composite_lookup 32 exampleRegistry "Skyrim.esm".toList "FFFF".toList 'x'
      (by decide) (by decide) (by decide) (by decide) (by decide) (by decide) (by decide)⟩

/-- C2: when the raw string contains no `|`, or two or more of them, `GetFormFromString`
returns exactly the symbolic-name lookup of the whole raw string, object or absent; the
container registry is not consulted: any registry with the same answer of the name index
for `raw` gives the same result. -/
theorem GetFormFromString_symbolic_lookup {T : Type} (longBits : Nat) (reg : Registry T)
    (raw : Str) (h : raw.count '|' = 0 ∨ 2 ≤ raw.count '|') :
    GetFormFromString longBits reg raw = .returns (reg.LookupByEditorID raw) ∧
    ∀ reg' : Registry T, reg'.LookupByEditorID raw = reg.LookupByEditorID raw →
      GetFormFromString longBits reg' raw = GetFormFromString longBits reg raw := by
  have hlen : (pieces ['|'] raw.length raw).length ≠ 2 := by
    rw [pieces_single_count '|' raw.length raw (Nat.le_refl _)]
    omega
  have hall : ∀ r : Registry T,
      GetFormFromString longBits r raw = .returns (r.LookupByEditorID raw) := fun r =>
    GetFormFromString_of_split_ne_two longBits r raw _
      (split_eq_pieces raw ['|'] (by simp)) hlen
  refine ⟨hall reg, fun reg' he => ?_⟩
  rw [hall reg', hall reg, he]

theorem GetFormFromString_symbolic_lookup_witness :
    GetFormFromString 32 exampleRegistry "MyKeywordEDID".toList = .returns (some 2) ∧
    GetFormFromString 32 exampleRegistry "Skyrim.esm|0x3C2|x".toList = .returns none :=
  ⟨(GetFormFromString_symbolic_lookup 32 exampleRegistry "MyKeywordEDID".toList
      (Or.inl (by decide))).1,
   (GetFormFromString_symbolic_lookup 32 exampleRegistry "Skyrim.esm|0x3C2|x".toList
      (Or.inr (by decide))).1⟩

/-- C3, the claim as stated fails: the container `NotLoaded.esp` is not loaded and the name
index holds an object under the whole text `NotLoaded.esp|0x1`, yet the resolver returns
absent instead of that object. -/
theorem GetFormFromString_fallback_counterexample :
    exampleRegistry.LookupModByName "NotLoaded.esp".toList = false ∧
    exampleRegistry.LookupByEditorID "NotLoaded.esp|0x1".toList = some 3 ∧
    GetFormFromString 32 exampleRegistry "NotLoaded.esp|0x1".toList = .returns none := by
  decide

/-- C3 as amended: for a raw string with exactly one `|` whose composite-form resolution
yields no object (container not loaded, id part not a well-formed prefixed hex literal,
numeric conversion fails, or the lookup of (container, id) finds nothing),
`GetFormFromString` returns absent; it does not fall back to the symbolic-name lookup. -/
theorem GetFormFromString_composite_miss_absent {T : Type} (longBits : Nat)
    (reg : Registry T) (c h : Str) (hc : '|' ∉ c) (hh : '|' ∉ h)
    (hmiss : reg.LookupModByName c = false ∨ is_only_hex h true = false ∨
      (∃ e, to_num longBits .uint32 h true = .error e) ∨
      (∃ v, to_num longBits .uint32 h true = .ok v ∧ reg.LookupForm v.toNat c = none)) :
    GetFormFromString longBits reg (c ++ '|' :: h) = .returns none := by
  rw [GetFormFromString_of_split_two longBits reg _ c h (split_single_two '|' c h hc hh)]
  rcases hmiss with h1 | h2 | ⟨e, h3⟩ | ⟨v, h4, h5⟩
  · simp [h1]
  · simp [h2]
  · rw [h3]; split_ifs <;> rfl
  · rw [h4]
    simp only [h5]
    split_ifs <;> rfl

theorem GetFormFromString_composite_miss_absent_witness :
    GetFormFromString 32 exampleRegistry "Skyrim.esm|0x100000000".toList = .returns none :=
  GetFormFromString_composite_miss_absent 32 exampleRegistry "Skyrim.esm".toList
    "0x100000000".toList (by decide) (by decide)
    (Or.inr (Or.inr (Or.inl ⟨.out_of_range, rfl⟩)))

/-- C4: for a raw string with exactly one `|`, if the part before it is not the name of a
loaded container, or the part after it fails `is_only_hex` with the marker required, then
`GetFormFromString` returns absent, whatever the symbolic-name index contains. -/
theorem GetFormFromString_unloaded_or_malformed_absent {T : Type} (longBits : Nat)
    (reg : Registry T) (c h : Str) (hc : '|' ∉ c) (hh : '|' ∉ h)
    (hfail : reg.LookupModByName c = false ∨ is_only_hex h true = false) :
    GetFormFromString longBits reg (c ++ '|' :: h) = .returns none := by
  rw [GetFormFromString_of_split_two longBits reg _ c h (split_single_two '|' c h hc hh)]
  rcases hfail with h1 | h2
  · simp [h1]
  · simp [h2]

theorem GetFormFromString_unloaded_or_malformed_absent_witness :
    GetFormFromString 32 exampleRegistry "NotLoaded.esp|0x1".toList = .returns none ∧
    GetFormFromString 32 exampleRegistry "Skyrim.esm|3C2".toList = .returns none :=
  ⟨GetFormFromString_unloaded_or_malformed_absent 32 exampleRegistry "NotLoaded.esp".toList
      "0x1".toList (by decide) (by decide) (Or.inl (by decide)),
   GetFormFromString_unloaded_or_malformed_absent 32 exampleRegistry "Skyrim.esm".toList
      "3C2".toList (by decide) (by decide) (Or.inr (by decide))⟩

/-- C5: for every raw string, every registry and every width of `unsigned long`,
`GetFormFromString` returns (a handle or absent): it neither loops nor lets a conversion
error escape, also when the id part is a hex literal too long for 32 bits. -/
theorem GetFormFromString_returns {T : Type} (longBits : Nat) (reg : Registry T)
    (raw : Str) : ∃ r, GetFormFromString longBits reg raw = .returns r := by
  have hs := split_eq_pieces raw ['|'] (by simp)
  by_cases hl : (pieces ['|'] raw.length raw).length = 2
  · match hp : pieces ['|'] raw.length raw, hl with
    | [c, h], _ =>
      rw [hp] at hs
      rw [GetFormFromString_of_split_two longBits reg raw c h hs]
      split_ifs
      · exact ⟨_, rfl⟩
      · exact ⟨_, rfl⟩
      · split <;> exact ⟨_, rfl⟩
  · exact ⟨_, GetFormFromString_of_split_ne_two longBits reg raw _ hs hl⟩

/-- C6: for every string `s` and non-empty delimiter `d`, `split s d` returns, and joining
its elements with `d` between consecutive elements gives back `s` exactly. -/
theorem split_joinWith_roundtrip (s d : Str) (hd : d ≠ []) :
    ∃ parts, split s d = some parts ∧ joinWith d parts = s :=
  ⟨_, split_eq_pieces s d hd, joinWith_pieces d hd s.length s (Nat.le_refl _)⟩

theorem split_joinWith_roundtrip_witness :
    ∃ parts, split "Skyrim.esm|0x0".toList "|".toList = some parts ∧
      joinWith "|".toList parts = "Skyrim.esm|0x0".toList :=
  split_joinWith_roundtrip "Skyrim.esm|0x0".toList "|".toList (by decide)

/-- C7, the claim as stated fails: `aaa` ends with the delimiter `aa`, and
`split("aaa", "aa")` is `["", "a"]`, whose last element is not empty. -/
theorem split_trailing_delimiter_counterexample :
    "aa".toList ≠ [] ∧ "aa".toList <:+ "aaa".toList ∧
    split "aaa".toList "aa".toList = some [[], "a".toList] ∧
    (split "aaa".toList "aa".toList).bind List.getLast? ≠ some [] := by
  decide

/-- C7 as amended: for every string `s` and every non-empty delimiter `d` without a border
(no non-empty proper beginning of `d` is also its end, as for every one-character
delimiter) such that `s` ends with `d`, the last element of `split s d` is the empty
string. -/
theorem split_trailing_delimiter_unbordered (s d : Str) (hd : d ≠ []) (hu : unbordered d)
    (hs : d <:+ s) : ∃ parts, split s d = some parts ∧ parts.getLast? = some [] :=
  ⟨_, split_eq_pieces s d hd,
    pieces_getLast d hd (unbordered_border d hu) s.length s (Nat.le_refl _) hs⟩

theorem split_trailing_delimiter_unbordered_witness :
    (∃ parts, split "A|".toList "|".toList = some parts ∧ parts.getLast? = some []) ∧
    (∃ parts, split "a, b, ".toList ", ".toList = some parts ∧ parts.getLast? = some []) :=
  ⟨split_trailing_delimiter_unbordered "A|".toList "|".toList (by decide) (by decide)
      (by decide),
   split_trailing_delimiter_unbordered "a, b, ".toList ", ".toList (by decide) (by decide)
      (by decide)⟩

/-- C8: for every string `s` (the empty one included) and non-empty delimiter `d`,
`split s d` returns at least one element; it returns exactly one element if and only if
`d` does not occur in `s`, and that element is then `s`. -/
theorem split_length_one_iff (s d : Str) (hd : d ≠ []) :
    ∃ parts, split s d = some parts ∧ 1 ≤ parts.length ∧
      (parts.length = 1 ↔ ¬ occursIn d s) ∧ (¬ occursIn d s → parts = [s]) := by
  refine ⟨_, split_eq_pieces s d hd, List.length_pos.mpr (pieces_ne_nil _ _ _), ?_, ?_⟩
  · rw [pieces_length_one d hd s.length s (Nat.le_refl _), find_zero_none_iff]
  · intro h
    exact pieces_of_find_none d _ s ((find_zero_none_iff s d).mpr h)

theorem split_length_one_iff_witness :
    ∃ parts, split [] "|".toList = some parts ∧ 1 ≤ parts.length ∧
      (parts.length = 1 ↔ ¬ occursIn "|".toList []) ∧
      (¬ occursIn "|".toList [] → parts = [[]]) :=
  split_length_one_iff [] "|".toList (by decide)

/-- C9: `is_only_hex s false` holds exactly when every character of `s` is a hex digit
(so it holds for the empty string), and `is_only_hex s true` holds exactly when `s` has at
least 3 characters, begins with `0x` or `0X`, and every later character is a hex digit. -/
theorem is_only_hex_spec (s : Str) :
    (is_only_hex s false = true ↔ ∀ c ∈ s, c ∈ hexChars) ∧
    (is_only_hex s true = true ↔
      3 ≤ s.length ∧ (s.take 2 = "0x".toList ∨ s.take 2 = "0X".toList) ∧
        ∀ c ∈ s.drop 2, c ∈ hexChars) :=
  ⟨is_only_hex_false_iff s, is_only_hex_true_iff s⟩

/-- C10: for every string `s`, non-empty search string `a` and replacement `b`,
`replace_all` returns, and the string it leaves is the elements of `split s a` joined with
`b`: the left-to-right non-overlapping occurrences of `a` in the original `s` are replaced
and the inserted text is not scanned again. -/
theorem replace_all_eq_joinWith_split (s a b : Str) (ha : a ≠ []) :
    ∃ parts flag, split s a = some parts ∧ replace_all s a b = some (joinWith b parts, flag) := by
  have h := replaceLoop_eq a b ha s.length s 0 false (Nat.zero_le _) (by simp)
  refine ⟨_, false || (find s a 0).isSome, split_eq_pieces s a ha, ?_⟩
  cases a with
  | nil => exact absurd rfl ha
  | cons x r =>
    simp only [replace_all, List.isEmpty_cons, Bool.false_eq_true, if_false]
    rw [h]
    simp

theorem replace_all_eq_joinWith_split_witness :
    (∃ parts flag, split "aaa".toList "a".toList = some parts ∧
      replace_all "aaa".toList "a".toList "ab".toList = some (joinWith "ab".toList parts, flag)) ∧
    replace_all "aaa".toList "a".toList "ab".toList = some ("ababab".toList, true) :=
  ⟨replace_all_eq_joinWith_split "aaa".toList "a".toList "ab".toList (by decide), by decide⟩

/-- C11: for every string `s`, search `a` and replacement `b`, `replace_all` returns; its
flag is true if and only if `a` is non-empty and occurs in `s`; whenever the flag is false
(in particular for every empty `a`) the string is left unchanged; and for a non-empty `a`
the string left is the elements of `split s a` joined with `b`, so that the number of
replacements made is the number of left-to-right non-overlapping occurrences of `a` in
`s`, and the flag is true if and only if at least one replacement was made. -/
theorem replace_all_flag_iff (s a b : Str) :
    ∃ out flag, replace_all s a b = some (out, flag) ∧
      (flag = true ↔ a ≠ [] ∧ occursIn a s) ∧ (flag = false → out = s) ∧
      (a ≠ [] → ∃ parts, split s a = some parts ∧ out = joinWith b parts ∧
        parts.length = countOccurrences a s 0 + 1 ∧
        (flag = true ↔ 1 ≤ countOccurrences a s 0)) := by
  by_cases ha : a = []
  · subst ha
    exact ⟨s, false, rfl, by simp, fun _ => rfl, fun h => absurd rfl h⟩
  · have h := replaceLoop_eq a b ha s.length s 0 false (Nat.zero_le _) (by simp)
    have hrun : replace_all s a b
        = some (joinWith b (pieces a s.length s), (find s a 0).isSome) := by
      cases a with
      | nil => exact absurd rfl ha
      | cons x r =>
        simp only [replace_all, List.isEmpty_cons, Bool.false_eq_true, if_false]
        rw [h]
        simp
    have hcount := pieces_length_countOccurrences a ha s.length s (Nat.le_refl _)
    have hone := pieces_length_one a ha s.length s (Nat.le_refl _)
    refine ⟨_, _, hrun, ?_, ?_, fun _ => ⟨_, split_eq_pieces s a ha, rfl, hcount, ?_⟩⟩
    · cases hk : find s a 0 with
      | none =>
        have := (find_zero_none_iff s a).mp hk
        simp [this]
      | some k =>
        have : occursIn a s := by
          by_contra hc
          rw [(find_zero_none_iff s a).mpr hc] at hk
          cases hk
        simp [ha, this]
    · intro hf
      cases hk : find s a 0 with
      | none => rw [pieces_of_find_none a _ s hk]; rfl
      | some k => rw [hk] at hf; cases hf
    · cases hk : find s a 0 with
      | none =>
        have h1 := hone.mpr hk
        simp only [Option.isSome_none, Bool.false_eq_true, false_iff]
        omega
      | some k =>
        have h1 : (pieces a s.length s).length ≠ 1 := by
          intro hc
          rw [hone.mp hc] at hk
          cases hk
        simp only [Option.isSome_some, true_iff]
        omega

theorem replace_all_flag_iff_witness :
    (∃ out flag, replace_all "aaa".toList "a".toList "ab".toList = some (out, flag) ∧
      (flag = true ↔ "a".toList ≠ [] ∧ occursIn "a".toList "aaa".toList) ∧
      (flag = false → out = "aaa".toList) ∧
      ("a".toList ≠ [] → ∃ parts, split "aaa".toList "a".toList = some parts ∧
        out = joinWith "ab".toList parts ∧
        parts.length = countOccurrences "a".toList "aaa".toList 0 + 1 ∧
        (flag = true ↔ 1 ≤ countOccurrences "a".toList "aaa".toList 0))) ∧
    replace_all "aaa".toList "a".toList "ab".toList = some ("ababab".toList, true) ∧
    countOccurrences "a".toList "aaa".toList 0 = 3 ∧
    replace_all "abc".toList "d".toList "x".toList = some ("abc".toList, false) ∧
    replace_all "abc".toList [] "x".toList = some ("abc".toList, false) :=
  ⟨replace_all_flag_iff "aaa".toList "a".toList "ab".toList, by decide, by decide, by decide,
    by decide⟩

/-- C13: for every string `s` and non-empty delimiter `d`, `SplitStrings` returns a pair
whose second component is absent if and only if `d` does not occur in `s`; when it is
absent the first component is `s`, and when it is present the first component is the
part of `s` before the first occurrence of `d`. -/
theorem SplitStrings_second_absent_iff (s d : Str) (hd : d ≠ []) :
    ∃ first second, SplitStrings s d = .returns (first, second) ∧
      (second = none ↔ ¬ occursIn d s) ∧ (second = none → first = s) ∧
      (second ≠ none → (∃ rest, s = first ++ d ++ rest) ∧
        ∀ a b, s = a ++ d ++ b → first.length ≤ a.length) := by
  cases hk : find s d 0 with
  | none =>
    have hno := (find_zero_none_iff s d).mp hk
    refine ⟨s, none, ?_, (by simp [hno]), (fun _ => rfl), (fun h => absurd rfl h)⟩
    simp only [SplitStrings, split_eq_pieces s d hd, pieces_of_find_none d _ s hk]
  | some e =>
    have hocc : occursIn d s := by
      by_contra hc
      rw [(find_zero_none_iff s d).mpr hc] at hk
      cases hk
    obtain ⟨hb, heq, -⟩ := find_zero_some s d e hk
    obtain ⟨x, l, hxl⟩ := List.exists_cons_of_ne_nil
      (pieces_ne_nil d (s.length - 1) (s.drop (e + d.length)))
    refine ⟨s.take e, some x, ?_, (by simp [hocc]), (fun h => nomatch h),
      fun _ => ⟨⟨_, heq⟩, ?_⟩⟩
    · simp only [SplitStrings, split_eq_pieces s d hd, pieces_of_find_some d hd s e hk, hxl]
    · intro a b hab
      have := find_zero_some_le s d e hk a b hab
      simp only [List.length_take]
      omega

theorem SplitStrings_second_absent_iff_witness :
    ∃ first second, SplitStrings "a,b,c".toList ",".toList = .returns (first, second) ∧
      (second = none ↔ ¬ occursIn ",".toList "a,b,c".toList) ∧
      (second = none → first = "a,b,c".toList) ∧
      (second ≠ none → (∃ rest, "a,b,c".toList = first ++ ",".toList ++ rest) ∧
        ∀ a b, "a,b,c".toList = a ++ ",".toList ++ b → first.length ≤ a.length) :=
  SplitStrings_second_absent_iff "a,b,c".toList ",".toList (by decide)

/-- C14, the code at the failing input: the delimiter occurs twice in `a,b,c`, and
`SplitStrings` returns `("a", "b")`; the text `,c` to the right of the second delimiter
is lost, so the two parts with the delimiter between them are not the input. -/
theorem SplitStrings_two_delimiters :
    SplitStrings "a,b,c".toList ",".toList = .returns ("a".toList, some "b".toList) ∧
    "a".toList ++ ",".toList ++ "b".toList ≠ "a,b,c".toList := by
  decide

/-- C15, the code at the failing input: for the empty string `SplitStrings` does not
throw; the split of the empty string has one element, so the emptiness test of the
split never fires, and the pair `("", absent)` is returned. -/
theorem SplitStrings_empty_input :
    split [] ",".toList = some [[]] ∧
    SplitStrings [] ",".toList = .returns ([], none) := by
  decide

/-- C20: for every string `s` and non-empty delimiter `d`, `split s d` returns, no element
of the result contains `d`, and the number of elements is one more than the number of
left-to-right non-overlapping occurrences of `d` in `s`. -/
theorem split_elements_delimiter_free (s d : Str) (hd : d ≠ []) :
    ∃ parts, split s d = some parts ∧ (∀ p ∈ parts, ¬ occursIn d p) ∧
      parts.length = countOccurrences d s 0 + 1 :=
  ⟨_, split_eq_pieces s d hd, not_occursIn_pieces d hd s.length s (Nat.le_refl _),
    pieces_length_countOccurrences d hd s.length s (Nat.le_refl _)⟩

theorem split_elements_delimiter_free_witness :
    (∃ parts, split "aaaaa".toList "aa".toList = some parts ∧
      (∀ p ∈ parts, ¬ occursIn "aa".toList p) ∧
      parts.length = countOccurrences "aa".toList "aaaaa".toList 0 + 1) ∧
    split "aaaaa".toList "aa".toList = some [[], [], "a".toList] ∧
    countOccurrences "aa".toList "aaaaa".toList 0 = 2 :=
  ⟨split_elements_delimiter_free "aaaaa".toList "aa".toList (by decide), by decide, by decide⟩

/-- C12, the claim as stated fails for the unsigned target: `-1` is a sign followed by a
decimal digit, its value is below the range of a 32-bit unsigned integer, and
`to_num<uint32_t>` returns 4294967295 instead of failing. -/
theorem to_num_uint32_negative_counterexample :
    "-1".toList = signText (some true) ++ "1".toList ∧
    signedValue (some true) (decValue "1".toList) = -1 ∧
    to_num 32 .uint32 "-1".toList false = .ok 4294967295 :=
  ⟨rfl, rfl, rfl⟩

/-- C12 as amended: for every string made of an optional sign followed by decimal digits,
`to_num<int>(s, false)` fails with out-of-range when the value lies outside the range of
`int`, and `to_num<uint32_t>(s, false)` fails with out-of-range when the digits exceed
`ULONG_MAX` (`2^32 - 1` where `unsigned long` has 32 bits), whatever the sign. -/
theorem to_num_decimal_out_of_range (longBits : Nat) (sign : Option Bool) (digits : Str)
    (hne : digits ≠ []) (h : ∀ c ∈ digits, c ∈ decChars) :
    ((signedValue sign (decValue digits) < -(2 ^ 31 : Int) ∨
        (2 ^ 31 : Int) ≤ signedValue sign (decValue digits)) →
      to_num longBits .int (signText sign ++ digits) false = .error .out_of_range) ∧
    (2 ^ longBits ≤ decValue digits →
      to_num longBits .uint32 (signText sign ++ digits) false = .error .out_of_range) :=
  ⟨to_num_int_dec_overflow longBits sign digits hne h,
    to_num_uint32_dec_overflow longBits sign digits hne h⟩

theorem to_num_decimal_out_of_range_witness :
    to_num 32 .int "99999999999999999999".toList false = .error .out_of_range ∧
    to_num 32 .uint32 "99999999999999999999".toList false = .error .out_of_range ∧
    to_num 32 .int "-2147483649".toList false = .error .out_of_range :=
  ⟨(to_num_decimal_out_of_range 32 none "99999999999999999999".toList (by decide)
      (by decide)).1 (by decide),
   (to_num_decimal_out_of_range 32 none "99999999999999999999".toList (by decide)
      (by decide)).2 (by decide),
   (to_num_decimal_out_of_range 32 (some true) "2147483649".toList (by decide)
      (by decide)).1 (by decide)⟩

/-- C16: for integers `a` and `b` in the range of `int`, written as decimal literals (a
`-` in front of a negative one) or as `0x` / `0X` followed by hex digits,
`SplitIntegers<int>` returns `(a, b)` on `A,B` and `(a, absent)` on `A`. -/
theorem SplitIntegers_literals (longBits : Nat) (A B : Str) (a b : Int)
    (hA : IsDecLiteral A a ∨ IsHexLiteral A a) (hB : IsDecLiteral B b ∨ IsHexLiteral B b)
    (ha : -(2 ^ 31 : Int) ≤ a ∧ a < (2 ^ 31 : Int))
    (hb : -(2 ^ 31 : Int) ≤ b ∧ b < (2 ^ 31 : Int)) :
    SplitIntegers longBits .int (A ++ ',' :: B) [','] = .returns (a, some b) ∧
    SplitIntegers longBits .int A [','] = .returns (a, none) := by
  have hcA := comma_not_mem_literal A a hA
  have hcB := comma_not_mem_literal B b hB
  have tA := to_num_int_of_literal longBits A a hA ha.1 ha.2
  have tB := to_num_int_of_literal longBits B b hB hb.1 hb.2
  constructor
  · simp only [SplitIntegers, split_single_two ',' A B hcA hcB, tA, tB]
  · simp only [SplitIntegers, split_single_one ',' A hcA, tA]

theorem SplitIntegers_literals_witness :
    (SplitIntegers 32 .int "5,10".toList ",".toList = .returns (5, some 10) ∧
      SplitIntegers 32 .int "5".toList ",".toList = .returns (5, none)) ∧
    (SplitIntegers 32 .int "-7,0x1F".toList ",".toList = .returns (-7, some 31) ∧
      SplitIntegers 32 .int "-7".toList ",".toList = .returns (-7, none)) :=
  ⟨SplitIntegers_literals 32 "5".toList "10".toList 5 10
      (Or.inl ⟨"5".toList, by decide, by decide, Or.inl ⟨rfl, rfl⟩⟩)
      (Or.inl ⟨"10".toList, by decide, by decide, Or.inl ⟨rfl, rfl⟩⟩)
      (by decide) (by decide),
   SplitIntegers_literals 32 "-7".toList "0x1F".toList (-7) 31
      (Or.inl ⟨"7".toList, by decide, by decide, Or.inr ⟨rfl, rfl⟩⟩)
      (Or.inr ⟨'x', "1F".toList, Or.inl rfl, by decide, by decide, rfl, rfl⟩)
      (by decide) (by decide)⟩

/-- C17, the claim as stated fails: the second segment of `99999999999,` is present and
empty, and `SplitIntegers<int>` fails with out-of-range, raised by the first segment
before the second one is converted. -/
theorem SplitIntegers_second_empty_counterexample :
    split "99999999999,".toList ",".toList = some ["99999999999".toList, []] ∧
    SplitIntegers 32 .int "99999999999,".toList ",".toList = .throws .out_of_range := by
  decide

/-- C17 as amended: for every non-empty delimiter `d`, `SplitIntegers<int>("", d)` fails
with invalid-argument; more generally it fails with invalid-argument whenever the first
segment is the empty string, and whenever a second segment is present and empty and the
first segment does not fail with out-of-range. -/
theorem SplitIntegers_empty_segment (longBits : Nat) (s d : Str) (hd : d ≠ []) :
    SplitIntegers longBits .int [] d = .throws .invalid_argument ∧
    ∃ first rest, split s d = some (first :: rest) ∧
      (first = [] → SplitIntegers longBits .int s d = .throws .invalid_argument) ∧
      (rest.head? = some [] →
        to_num longBits .int first (is_only_hex first true) ≠ .error .out_of_range →
        SplitIntegers longBits .int s d = .throws .invalid_argument) := by
  constructor
  · apply SplitIntegers_first_error longBits .int [] d [] [] _ _ (to_num_int_nil longBits)
    rw [split_eq_pieces [] d hd, pieces_nil d hd]
  · obtain ⟨first, rest, hs⟩ := split_cons_of_ne_nil s d hd
    refine ⟨first, rest, hs, ?_, ?_⟩
    · rintro rfl
      exact SplitIntegers_first_error longBits .int s d [] rest _ hs (to_num_int_nil longBits)
    · intro h2 hne
      rcases rest with _ | ⟨second, rest⟩
      · cases h2
      · simp only [List.head?_cons, Option.some.injEq] at h2
        subst h2
        exact SplitIntegers_second_error longBits .int s d first [] rest hs hne
          (to_num_int_nil longBits)

theorem SplitIntegers_empty_segment_witness :
    (SplitIntegers 32 .int [] ",".toList = .throws .invalid_argument ∧
      ∃ first rest, split "5,".toList ",".toList = some (first :: rest) ∧
        (first = [] →
          SplitIntegers 32 .int "5,".toList ",".toList = .throws .invalid_argument) ∧
        (rest.head? = some [] →
          to_num 32 .int first (is_only_hex first true) ≠ .error .out_of_range →
          SplitIntegers 32 .int "5,".toList ",".toList = .throws .invalid_argument)) ∧
    SplitIntegers 32 .int "5,".toList ",".toList = .throws .invalid_argument ∧
    SplitIntegers 32 .int ",5".toList ",".toList = .throws .invalid_argument :=
  ⟨SplitIntegers_empty_segment 32 "5,".toList ",".toList (by decide), by decide, by decide⟩

/-- C18, the claim as stated fails: the only segment of `5abc` is neither an optionally
signed run of decimal digits nor a prefixed hex literal, and `SplitIntegers<int>` returns
`(5, absent)`: the conversion reads the number at the head of the segment. -/
theorem SplitIntegers_number_then_text_counterexample :
    split "5abc".toList ",".toList = some ["5abc".toList] ∧
    (¬ ∃ (sign : Option Bool) (digits : Str), digits ≠ [] ∧
      (∀ c ∈ digits, c ∈ decChars) ∧ "5abc".toList = signText sign ++ digits) ∧
    (¬ ∃ v, IsHexLiteral "5abc".toList v) ∧
    SplitIntegers 32 .int "5abc".toList ",".toList = .returns (5, none) := by
  refine ⟨by decide, ?_, ?_, by decide⟩
  · rintro ⟨sign, digits, -, hd, heq⟩
    have hl : "5abc".toList = ['5', 'a', 'b', 'c'] := rfl
    rw [hl] at heq
    rcases sign with _ | _ | _
    · simp only [signText, List.nil_append] at heq
      subst heq
      exact absurd (hd 'a' (by simp)) (by decide)
    · simp [signText] at heq
    · simp [signText] at heq
  · rintro ⟨v, x, digits, -, -, -, heq, -⟩
    have hl : "5abc".toList = ['5', 'a', 'b', 'c'] := rfl
    rw [hl] at heq
    simp at heq

/-- C18 as amended: `SplitIntegers<int>` fails with invalid-argument for every input whose
first segment is not a prefixed hex literal and does not begin with a decimal number
(white space, an optional sign, then a decimal digit), and for every input whose second
segment is present and is such, provided the first segment does not fail with
out-of-range.  A segment that is not a prefixed hex literal and only begins with a decimal
number that fits in `int` (white space, an optional sign, digits, then any text that does
not go on with a digit, as in `5abc` or ` 42`) is converted to that number: the pair of
the numbers is returned, with the second absent when there is one segment. -/
theorem SplitIntegers_no_number (longBits : Nat) (s d : Str) (hd : d ≠ []) :
    ∃ first rest, split s d = some (first :: rest) ∧
      (is_only_hex first true = false → ¬ startsWithDecimal first →
        SplitIntegers longBits .int s d = .throws .invalid_argument) ∧
      (∀ second, rest.head? = some second →
        is_only_hex second true = false → ¬ startsWithDecimal second →
        to_num longBits .int first (is_only_hex first true) ≠ .error .out_of_range →
        SplitIntegers longBits .int s d = .throws .invalid_argument) ∧
      (∀ v, is_only_hex first true = false → BeginsWithNumber first v →
        -(2 ^ 31 : Int) ≤ v → v < (2 ^ 31 : Int) →
        (rest = [] → SplitIntegers longBits .int s d = .returns (v, none)) ∧
        (∀ second w, rest.head? = some second →
          is_only_hex second true = false → BeginsWithNumber second w →
          -(2 ^ 31 : Int) ≤ w → w < (2 ^ 31 : Int) →
          SplitIntegers longBits .int s d = .returns (v, some w))) := by
  obtain ⟨first, rest, hs⟩ := split_cons_of_ne_nil s d hd
  refine ⟨first, rest, hs, ?_, ?_, ?_⟩
  · intro hx hn
    apply SplitIntegers_first_error longBits .int s d first rest _ hs
    rw [hx]
    exact to_num_int_no_number longBits first hn
  · intro second h2 hx hn hne
    rcases rest with _ | ⟨sec, rest⟩
    · cases h2
    · simp only [List.head?_cons, Option.some.injEq] at h2
      subst h2
      apply SplitIntegers_second_error longBits .int s d first sec rest hs hne
      rw [hx]
      exact to_num_int_no_number longBits sec hn
  · intro v hx hb h1 h2
    have tf := to_num_int_begins longBits first v hx hb h1 h2
    constructor
    · intro hr
      subst hr
      simp only [SplitIntegers, hs, tf]
    · intro second w hh hx2 hb2 hw1 hw2
      rcases rest with _ | ⟨sec, rest⟩
      · cases hh
      · simp only [List.head?_cons, Option.some.injEq] at hh
        subst hh
        have ts := to_num_int_begins longBits sec w hx2 hb2 hw1 hw2
        simp only [SplitIntegers, hs, tf, ts]

theorem SplitIntegers_no_number_witness :
    SplitIntegers 32 .int " 42,5abc".toList ",".toList = .returns (42, some 5) ∧
    SplitIntegers 32 .int " 42".toList ",".toList = .returns (42, none) ∧
    SplitIntegers 32 .int "\t-7 apples".toList ",".toList = .returns (-7, none) ∧
    SplitIntegers 32 .int "abc,5".toList ",".toList = .throws .invalid_argument ∧
    SplitIntegers 32 .int "5,abc".toList ",".toList = .throws .invalid_argument := by
  refine ⟨?_, by decide, by decide, by decide, by decide⟩
  obtain ⟨first, rest, hs, -, -, hconv⟩ :=
    SplitIntegers_no_number 32 " 42,5abc".toList ",".toList (by decide)
  have h2 : split " 42,5abc".toList ",".toList = some [" 42".toList, "5abc".toList] := by
    decide
  rw [h2] at hs
  simp only [Option.some.injEq, List.cons.injEq] at hs
  obtain ⟨hf, hr⟩ := hs
  subst hf
  subst hr
  exact (hconv 42 (by decide)
    ⟨" ".toList, none, "42".toList, [], rfl, by decide, by decide, by decide,
      (fun _ h => nomatch h), rfl⟩
    (by decide) (by decide)).2 "5abc".toList 5 rfl (by decide)
    ⟨[], none, "5".toList, "abc".toList, rfl, by decide, by decide, by decide,
      (fun ch h => by
        have h1 : some 'a' = some ch := h
        cases h1
        decide), rfl⟩
    (by decide) (by decide)

/-- C19: for every string `s` accepted by `is_only_hex` with the marker required (and an
`unsigned long` of at least 32 bits), `to_num<uint32_t>(s, true)` never fails with
invalid-argument; it returns the base-16 value of the digits after the marker when that
value is below `2^32`; and when it fails, the failure is out-of-range and the value is
`2^32` or more, so the handler of the resolver is reached only by an oversized id. -/
theorem to_num_uint32_of_is_only_hex (longBits : Nat) (hL : 32 ≤ longBits) (s : Str)
    (h : is_only_hex s true = true) :
    to_num longBits .uint32 s true ≠ .error .invalid_argument ∧
    (hexValue (s.drop 2) < 2 ^ 32 →
      to_num longBits .uint32 s true = .ok (hexValue (s.drop 2) : Int)) ∧
    (∀ e, to_num longBits .uint32 s true = .error e →
      e = .out_of_range ∧ 2 ^ 32 ≤ hexValue (s.drop 2)) := by
  obtain ⟨x, digits, hx, hne, hd, hs, hdrop⟩ := is_only_hex_true_form s h
  have hpow : (2 : Nat) ^ 32 ≤ 2 ^ longBits := Nat.pow_le_pow_right (by decide) hL
  have heq := to_num_uint32_hex_eq longBits x hx digits hne hd
  rw [hdrop]
  rw [← hs] at heq
  by_cases hbig : 2 ^ longBits ≤ hexValue digits
  · rw [if_pos hbig] at heq
    rw [heq]
    refine ⟨by simp, fun hlt => by omega, fun e he => ?_⟩
    cases he
    exact ⟨rfl, by omega⟩
  · rw [if_neg hbig] at heq
    rw [heq]
    refine ⟨by simp, fun hlt => ?_, fun e he => by cases he⟩
    have : ((hexValue digits : Nat) : Int) % 2 ^ 32
        = ((hexValue digits % 2 ^ 32 : Nat) : Int) := by norm_cast
    rw [this, Nat.mod_eq_of_lt hlt]

theorem to_num_uint32_of_is_only_hex_witness :
    to_num 32 .uint32 "0x3C2".toList true ≠ .error .invalid_argument ∧
    (hexValue ("0x3C2".toList.drop 2) < 2 ^ 32 →
      to_num 32 .uint32 "0x3C2".toList true = .ok (hexValue ("0x3C2".toList.drop 2) : Int)) ∧
    (∀ e, to_num 32 .uint32 "0x3C2".toList true = .error e →
      e = .out_of_range ∧ 2 ^ 32 ≤ hexValue ("0x3C2".toList.drop 2)) :=
  to_num_uint32_of_is_only_hex 32 (by decide) "0x3C2".toList (by decide)

end Utilities
